import Mathlib

/-!
Verification development for the MT_workflow translation pipeline.

Texts are modelled as `List Char`. Python's `re.sub` is modelled by a
left-to-right scanner that, at each position, asks a matcher for the length of
the (deterministic, greedy) match of the pattern at that position; matches are
replaced by generated placeholders and recorded in a registry, exactly as
`local_masking_logic` does. The random `uuid4().hex[:4].upper()` suffix of the
source — four uppercase hexadecimal characters drawn afresh at every
replacement, so collisions between draws are possible — is modelled by an
explicit draw sequence `u : Nat → Str` of `Hex4` values, consumed in
replacement order by the index threaded through the three pattern passes the
way one `registry.mask_map` dict is reused by the three `re.sub` calls; the
registry applies Python dict-assignment semantics (`dictOf`), so a colliding
draw silently overwrites the earlier original. `hexPad` enumerates the
possible draw values (for arguments below 65536 it ranges over exactly the
four-character uppercase-hexadecimal strings), which lets single statements
quantify over every possible suffix a run can draw. Whitespace and word
characters are modelled over ASCII.

Recursive scanners take an explicit fuel argument and consume one unit per
step; since every step also consumes at least one input character, fuel equal
to the input length is always sufficient, and the fuel-free wrappers supply
exactly that. This keeps every definition structurally recursive and hence
computable by the kernel.
-/

namespace MTW

abbrev Str := List Char

/-- Shorthand turning a string literal into the `List Char` representation. -/
def sl (s : String) : Str := s.data

/-! ### Token lists: the ghost decomposition of a partially masked text -/

/-- A piece of a (partially) masked text: either raw characters or a
placeholder `tag ph orig` standing where a match `orig` was replaced by `ph`. -/
inductive MTok where
  | raw : Str → MTok
  | tag : Str → Str → MTok
deriving DecidableEq, Repr

/-- The masked rendering: placeholders stand in the text. -/
def renderM : List MTok → Str
  | [] => []
  | MTok.raw s :: ts => s ++ renderM ts
  | MTok.tag p _ :: ts => p ++ renderM ts

/-- The original rendering: every placeholder replaced by its original. -/
def renderR : List MTok → Str
  | [] => []
  | MTok.raw s :: ts => s ++ renderR ts
  | MTok.tag _ o :: ts => o ++ renderR ts

/-- The registry entries contributed by a token list, in text order. -/
def entriesM : List MTok → List (Str × Str)
  | [] => []
  | MTok.raw _ :: ts => entriesM ts
  | MTok.tag p o :: ts => (p, o) :: entriesM ts

/-! ### Character classes of the source's regular expressions -/

/-- Python `\s` restricted to ASCII. -/
def isSpaceC (c : Char) : Bool :=
  c = ' ' || c = '\t' || c = '\n' || c = '\r' || c = '\x0b' || c = '\x0c'

/-- Sentence delimiters of `local_splitting_logic`: `[。！？\.!\?]`. -/
def delimC (c : Char) : Bool :=
  c = '。' || c = '！' || c = '？' || c = '.' || c = '!' || c = '?'

/-- Python `\w` restricted to ASCII: letters, digits, underscore. -/
def isWordC (c : Char) : Bool := c.isAlpha || c.isDigit || c = '_'

/-- Character class of the email local part `[a-zA-Z0-9_.+-]`. -/
def isLocalC (c : Char) : Bool :=
  c.isAlpha || c.isDigit || c = '_' || c = '.' || c = '+' || c = '-'

/-- Character class of the email domain head `[a-zA-Z0-9-]`. -/
def isDomainC (c : Char) : Bool := c.isAlpha || c.isDigit || c = '-'

/-- Character class of the email domain tail `[a-zA-Z0-9-.]`. -/
def isDomTailC (c : Char) : Bool := c.isAlpha || c.isDigit || c = '-' || c = '.'

/-- Length of the maximal run of characters satisfying `p` at the head. -/
def runLen (p : Char → Bool) : Str → Nat
  | [] => 0
  | c :: cs => if p c then runLen p cs + 1 else 0

/-! ### The three sensitive-pattern matchers

Each matcher takes the character just before the current position (needed by
`\b`) and the rest of the text, and returns the length of the match at this
position, if any. The patterns of `local_masking_logic` are deterministic:
their greedy character-class runs admit no productive backtracking (no run's
class contains the character required right after it), so maximal munch is
exactly Python's behaviour. -/

/-- Match length of `[a-zA-Z0-9_.+-]+@[a-zA-Z0-9-]+\.[a-zA-Z0-9-.]+` at the
head of `s` (the EMAIL pattern). -/
def emailLen (s : Str) : Option Nat :=
  let r1 := runLen isLocalC s
  if r1 = 0 then none else
    match s.drop r1 with
    | '@' :: s2 =>
      let r2 := runLen isDomainC s2
      if r2 = 0 then none else
        match s2.drop r2 with
        | '.' :: s3 =>
          let r3 := runLen isDomTailC s3
          if r3 = 0 then none else some (r1 + 1 + r2 + 1 + r3)
        | _ => none
    | _ => none

/-- The EMAIL matcher ignores the preceding character (no `\b`). -/
def emailM (_ : Option Char) (s : Str) : Option Nat := emailLen s

/-- One `\d{1,3}` group: the maximal digit run must have length 1..3 (a
longer run can never be fixed up by backtracking, since shortening it leaves a
digit where a non-digit is required). -/
def ipGroup (s : Str) : Option (Nat × Str) :=
  let r := runLen Char.isDigit s
  if 1 ≤ r ∧ r ≤ 3 then some (r, s.drop r) else none

/-- Match length of `\b\d{1,3}\.\d{1,3}\.\d{1,3}\.\d{1,3}\b` at the head of
`s`, where `prev` is the character before the position (the IP pattern). The
leading `\b` holds iff `prev` is absent or a non-word character (the first
matched character is a digit, hence a word character); the trailing `\b`
holds iff the character after the match is absent or a non-word character. -/
def ipM (prev : Option Char) (s : Str) : Option Nat :=
  if (match prev with | some c => isWordC c | none => false) then none else
  match ipGroup s with
  | none => none
  | some (r1, s1) =>
    match s1 with
    | '.' :: s1' =>
      match ipGroup s1' with
      | none => none
      | some (r2, s2) =>
        match s2 with
        | '.' :: s2' =>
          match ipGroup s2' with
          | none => none
          | some (r3, s3) =>
            match s3 with
            | '.' :: s3' =>
              match ipGroup s3' with
              | none => none
              | some (r4, s4) =>
                match s4 with
                | [] => some (r1 + 1 + r2 + 1 + r3 + 1 + r4)
                | c :: _ =>
                  if isWordC c then none else some (r1 + 1 + r2 + 1 + r3 + 1 + r4)
            | _ => none
        | _ => none
    | _ => none

/-- Match length of `https?://[^\s]+` at the head of `s` (the URL pattern). -/
def urlLen (s : Str) : Option Nat :=
  match s with
  | 'h' :: 't' :: 't' :: 'p' :: rest =>
    match rest with
    | 's' :: ':' :: '/' :: '/' :: r =>
      let n := runLen (fun c => !isSpaceC c) r
      if n = 0 then none else some (8 + n)
    | ':' :: '/' :: '/' :: r =>
      let n := runLen (fun c => !isSpaceC c) r
      if n = 0 then none else some (7 + n)
    | _ => none
  | _ => none

/-- The URL matcher ignores the preceding character (no `\b`). -/
def urlM (_ : Option Char) (s : Str) : Option Nat := urlLen s

/-! ### Placeholder generation -/

/-- One uppercase hexadecimal digit. -/
def hexDig (n : Nat) : Char :=
  if n < 10 then Char.ofNat (48 + n) else Char.ofNat (55 + n)

/-- Value of one uppercase hexadecimal digit. -/
def hexValD (c : Char) : Nat := if c.toNat < 58 then c.toNat - 48 else c.toNat - 55

/-- Fuelled digits-of-`n` in base 16, most significant first. -/
def hexCharsF : Nat → Nat → Str
  | 0, n => [hexDig (n % 16)]
  | fuel + 1, n =>
    if n < 16 then [hexDig n] else hexCharsF fuel (n / 16) ++ [hexDig (n % 16)]

/-- Uppercase hexadecimal digits of `n`, most significant first. -/
def hexChars (n : Nat) : Str := hexCharsF n n

/-- Value of an uppercase hexadecimal digit string. -/
def hexVal (s : Str) : Nat := s.foldl (fun a c => 16 * a + hexValD c) 0

/-- Uppercase hexadecimal rendering of `n`, left-padded with `0` to width
four: for `n < 65536` this ranges over exactly the possible
`uuid4().hex[:4].upper()` draw values (it makes no claim of modelling the
randomness itself; the draw-indexed masker below takes the run's draws as an
explicit sequence). -/
def hexPad (n : Nat) : Str := List.replicate (4 - (hexChars n).length) '0' ++ hexChars n

/-- Body of a placeholder: `LABEL_SUFFIX`. -/
def phMid (label : Str) (n : Nat) : Str := label ++ '_' :: hexPad n

/-- A placeholder with the given body: the token `[[mid]]`. -/
def phWrap (mid : Str) : Str := '[' :: '[' :: (mid ++ [']', ']'])

/-- The generated placeholder `[[LABEL_SUFFIX]]`. -/
def phKey (label : Str) (n : Nat) : Str := phWrap (phMid label n)

def labE : Str := ['E', 'M', 'A', 'I', 'L']
def labI : Str := ['I', 'P']
def labU : Str := ['U', 'R', 'L']

/-- One uppercase hexadecimal character: the alphabet of
`uuid4().hex[:4].upper()`. -/
def hexC (c : Char) : Bool := c.isDigit || ('A' ≤ c && c ≤ 'F')

/-- A possible value of one `uuid4().hex[:4].upper()` draw: exactly four
uppercase hexadecimal characters (65536 values, so draws can collide). -/
def Hex4 (s : Str) : Prop := s.length = 4 ∧ ∀ c ∈ s, hexC c = true

instance Hex4.dec (s : Str) : Decidable (Hex4 s) :=
  inferInstanceAs (Decidable (s.length = 4 ∧ ∀ c ∈ s, hexC c = true))

/-- Body of a placeholder for a drawn suffix: `LABEL_SUFFIX`. -/
def phMidD (label sfx : Str) : Str := label ++ '_' :: sfx

/-- The generated placeholder `[[LABEL_SUFFIX]]` for a drawn suffix. -/
def phKeyD (label sfx : Str) : Str := phWrap (phMidD label sfx)

/-! ### Occurrence counting and predicates used by the statements -/

/-- `p` occurs (contiguously) in `hay`. -/
def OccursIn (hay p : Str) : Prop := ∃ a b, hay = a ++ p ++ b

/-- Whether the first list is a prefix of the second. -/
def pfxB : Str → Str → Bool
  | [], _ => true
  | _ :: _, [] => false
  | a :: as, b :: bs => a = b && pfxB as bs

/-- Number of positions of `s` at which `p` occurs. -/
def occAll (p : Str) : Str → Nat
  | [] => 0
  | c :: cs => (if pfxB p (c :: cs) then 1 else 0) + occAll p cs

/-- Characters allowed in the body of a generated placeholder: uppercase
letters, digits, underscore. -/
def midC (c : Char) : Bool := c.isUpper || c.isDigit || c = '_'

/-- Well-formed generated placeholder body: non-empty, starts with an
uppercase letter, and uses only body characters. -/
def PhMidP (mid : Str) : Prop :=
  (∃ c cs, mid = c :: cs ∧ c.isUpper = true) ∧ ∀ c ∈ mid, midC c = true

/-- Well-formed generated placeholder. -/
def PhKeyP (p : Str) : Prop := ∃ mid, PhMidP mid ∧ p = phWrap mid

/-- A placeholder-shaped token whose body contains no brackets, no sentence
delimiter and no whitespace (every generated placeholder is of this shape). -/
def PhTok (p : Str) : Prop :=
  ∃ mid, p = phWrap mid ∧ mid ≠ [] ∧
    ∀ c ∈ mid, c ≠ '[' ∧ c ≠ ']' ∧ delimC c = false ∧ isSpaceC c = false

/-- Well-formed token list: every tag key is a generated placeholder, raw
pieces are non-empty, and no two raw pieces are adjacent (the shape every
scanner output has). -/
def TokWF : List MTok → Prop
  | [] => True
  | MTok.raw _ :: MTok.raw _ :: _ => False
  | MTok.raw s :: ts => s ≠ [] ∧ TokWF ts
  | MTok.tag p _ :: ts => PhKeyP p ∧ TokWF ts

/-! ### The `re.sub` scanner -/

/-- Prepend a raw character to a token list, merging with a leading raw token
so that raw runs stay contiguous. -/
def consRaw (c : Char) : List MTok → List MTok
  | MTok.raw s :: ts => MTok.raw (c :: s) :: ts
  | ts => MTok.raw [c] :: ts

/-- Fuelled `re.sub(pattern, replace, text)` pass: scan left to right; at each
position ask the matcher; on a match, emit a `tag` holding the generated
placeholder and the matched text and resume after the match (with `prev` the
last matched character); otherwise emit the character raw. Matching is done on
the input text, never on replacements, exactly as `re.sub` does. -/
def scanPassF (m : Option Char → Str → Option Nat) (mk : Nat → Str) :
    Nat → Option Char → Str → Nat → List MTok × Nat
  | 0, _, _, ctr => ([], ctr)
  | _ + 1, _, [], ctr => ([], ctr)
  | fuel + 1, prev, c :: cs, ctr =>
    match m prev (c :: cs) with
    | some n =>
      let len := max n 1
      let matched := (c :: cs).take len
      let r := scanPassF m mk fuel matched.getLast? (cs.drop (len - 1)) (ctr + 1)
      (MTok.tag (mk ctr) matched :: r.1, r.2)
    | none =>
      let r := scanPassF m mk fuel (some c) cs ctr
      (consRaw c r.1, r.2)

/-- One `re.sub` pass (fuel-free wrapper). -/
def scanPass (m : Option Char → Str → Option Nat) (mk : Nat → Str)
    (prev : Option Char) (s : Str) (ctr : Nat) : List MTok × Nat :=
  scanPassF m mk s.length prev s ctr

/-- The EMAIL pass of `local_masking_logic`. -/
def maskPassE (t : Str) : List MTok × Nat := scanPass emailM (phKey labE) none t 0

/-- The IP pass, run on the output text of the EMAIL pass, continuing the
same registry. -/
def maskPassI (t : Str) : List MTok × Nat :=
  scanPass ipM (phKey labI) none (renderM (maskPassE t).1) (maskPassE t).2

/-- The URL pass, run on the output text of the IP pass. -/
def maskPassU (t : Str) : List MTok × Nat :=
  scanPass urlM (phKey labU) none (renderM (maskPassI t).1) (maskPassI t).2

/-- `local_masking_logic` with the draw sequence instantiated by the suffix
enumeration `hexPad` (counter-indexed keys): the three `re.sub` passes in the
order of the `patterns` dict (EMAIL, IP, URL) and the recorded pairs in
recording order. Quantifying over the counter range covers every suffix value
a run can draw; the draw-indexed form `local_masking_logic'` below models one
concrete run. -/
def local_masking_logic (t : Str) : Str × List (Str × Str) :=
  (renderM (maskPassU t).1,
    entriesM (maskPassE t).1 ++ entriesM (maskPassI t).1 ++ entriesM (maskPassU t).1)

/-- Python dict assignment `m[k] = v` on an insertion-ordered association
list: overwrite the value in place if the key exists, else append. -/
def dictInsert (m : List (Str × Str)) (k v : Str) : List (Str × Str) :=
  if k ∈ m.map Prod.fst then m.map (fun e => if e.1 = k then (e.1, v) else e)
  else m ++ [(k, v)]

/-- The dict built by assigning the given pairs in order (Python dict
semantics: a repeated key keeps its first position and its last value). -/
def dictOf (l : List (Str × Str)) : List (Str × Str) :=
  l.foldl (fun m e => dictInsert m e.1 e.2) []

/-- The EMAIL pass of one concrete run whose suffix draws are `u` (one
`uuid4().hex[:4].upper()` draw per replacement, consumed in replacement
order). -/
def maskPassE' (u : Nat → Str) (t : Str) : List MTok × Nat :=
  scanPass emailM (fun n => phKeyD labE (u n)) none t 0

/-- The IP pass of the run, on the EMAIL pass's output text, continuing the
same draw sequence. -/
def maskPassI' (u : Nat → Str) (t : Str) : List MTok × Nat :=
  scanPass ipM (fun n => phKeyD labI (u n)) none (renderM (maskPassE' u t).1)
    (maskPassE' u t).2

/-- The URL pass of the run, on the IP pass's output text. -/
def maskPassU' (u : Nat → Str) (t : Str) : List MTok × Nat :=
  scanPass urlM (fun n => phKeyD labU (u n)) none (renderM (maskPassI' u t).1)
    (maskPassI' u t).2

/-- The pairs recorded by the run's three passes, in recording order (before
dict assignment collapses colliding keys). -/
def maskEntries' (u : Nat → Str) (t : Str) : List (Str × Str) :=
  entriesM (maskPassE' u t).1 ++ entriesM (maskPassI' u t).1 ++
    entriesM (maskPassU' u t).1

/-- `local_masking_logic` of one concrete run with suffix draws `u`: the
three `re.sub` passes (EMAIL, IP, URL) and the `registry.mask_map` dict built
by assignment, in insertion order. -/
def local_masking_logic' (u : Nat → Str) (t : Str) : Str × List (Str × Str) :=
  (renderM (maskPassU' u t).1, dictOf (maskEntries' u t))

/-! ### The splitter -/

/-- Splitting scan for `re.split(r'(?<=[。！？\.!\?])\s*', text)`: a piece
closes right after every delimiter character (the lookbehind keeps the
delimiter with the preceding piece), and the `\s*` run following a delimiter
is consumed; `skip` is true while inside such a run. -/
def splitRec : Bool → Str → Str → List Str
  | _, acc, [] => [acc.reverse]
  | skip, acc, c :: cs =>
    if skip && isSpaceC c then splitRec true acc cs
    else if delimC c then (acc.reverse ++ [c]) :: splitRec true [] cs
    else splitRec false (c :: acc) cs

/-- Python `str.strip()` over the modelled whitespace. -/
def stripW (s : Str) : Str := ((s.dropWhile isSpaceC).reverse.dropWhile isSpaceC).reverse

/-- `local_splitting_logic`: split, strip each sentence, keep the non-empty
ones. -/
def local_splitting_logic (t : Str) : List Str :=
  ((splitRec false [] t).map stripW).filter (fun s => !s.isEmpty)

/-! ### The tag validator -/

/-- Find the lazy closing `]]` for `re` pattern `\[\[.*?\]\]`: the index of
the earliest `]]` reachable without crossing a newline (`.` does not match
`\n`). -/
def closePos : Str → Option Nat
  | ']' :: ']' :: _ => some 0
  | c :: cs => if c = '\n' then none else (closePos cs).map (· + 1)
  | [] => none

/-- Fuelled `re.findall(r"\[\[.*?\]\]", text)`: leftmost, non-overlapping,
lazy. On `[[` with no reachable `]]` the scan moves on by one character,
exactly as the regex engine does. -/
def tagScanF : Nat → Str → List Str
  | 0, _ => []
  | fuel + 1, s =>
    match s with
    | '[' :: '[' :: rest =>
      match closePos rest with
      | some k => ('[' :: '[' :: (rest.take k ++ [']', ']'])) :: tagScanF fuel (rest.drop (k + 2))
      | none => tagScanF fuel ('[' :: rest)
    | _ :: cs => tagScanF fuel cs
    | [] => []

/-- `re.findall(r"\[\[.*?\]\]", text)` (fuel-free wrapper). -/
def tagScan (s : Str) : List Str := tagScanF s.length s

/-- `check_tags_consistency`: extract the `[[...]]` tags of both texts,
deduplicate (Python `set`), and succeed exactly when neither side has a tag
the other lacks. The diagnostic message of the source is presentation only and
is not modelled. -/
def check_tags_consistency (original_masked translated_text : Str) : Bool :=
  let original_tags := (tagScan original_masked).dedup
  let translated_tags := (tagScan translated_text).dedup
  let missing := original_tags.filter (fun x => decide (x ∉ translated_tags))
  let extra := translated_tags.filter (fun x => decide (x ∉ original_tags))
  missing.isEmpty && extra.isEmpty

/-! ### The reducer -/

/-- Fuelled Python `str.replace(p, o)`: leftmost, non-overlapping replacement
of every occurrence. -/
def replaceAllF (p o : Str) : Nat → Str → Str
  | 0, _ => []
  | _ + 1, [] => []
  | fuel + 1, c :: cs =>
    if pfxB p (c :: cs) then o ++ replaceAllF p o fuel (cs.drop (p.length - 1))
    else c :: replaceAllF p o fuel cs

/-- Python `str.replace(p, o)`. The `p = []` guard is never exercised:
registry keys are placeholders, which are non-empty. -/
def replaceAll (s p o : Str) : Str := if p = [] then s else replaceAllF p o s.length s

/-- `perform_final_reduction`: replace every placeholder of the mask map by
its original, iterating the map in insertion order. -/
def perform_final_reduction (text : Str) (mask_map : List (Str × Str)) : Str :=
  mask_map.foldl (fun acc e => replaceAll acc e.1 e.2) text

/-- Replace every tag carrying placeholder `k` by its original, as raw text:
the token-level counterpart of one reduction step. -/
def replTag (k : Str) : List MTok → List MTok :=
  List.map fun t =>
    match t with
    | MTok.tag p o => if p = k then MTok.raw o else MTok.tag p o
    | t => t

/-- Refine a token list by running one scan pass inside every raw piece,
leaving existing tags untouched: the flat decomposition of the pass output. -/
def liftPass (m : Option Char → Str → Option Nat) (mk : Nat → Str) :
    Option Char → List MTok → Nat → List MTok × Nat
  | _, [], ctr => ([], ctr)
  | prev, MTok.raw s :: ts, ctr =>
    let r := scanPass m mk prev s ctr
    let rest := liftPass m mk (if s.isEmpty then prev else s.getLast?) ts r.2
    (r.1 ++ rest.1, rest.2)
  | _, MTok.tag p o :: ts, ctr =>
    let rest := liftPass m mk (some ']') ts ctr
    (MTok.tag p o :: rest.1, rest.2)

/-! ### The retrieval mock -/

/-- Whether `p` occurs as a contiguous substring of `hay` (Python `in`). -/
def containsB (hay p : Str) : Bool :=
  match hay with
  | [] => p.isEmpty
  | _ :: t => pfxB p hay || containsB t p

/-- ASCII lowering, the identity beyond ASCII, matching `str.lower` on the
texts involved. -/
def lowerS (s : Str) : Str := s.map Char.toLower

/-- The glossary of `MockStorage`, in insertion order. -/
def glossary : List (Str × Str) :=
  [(sl "AutoGen", sl "自动智能体框架"),
   (sl "workflow", sl "工作流"),
   (sl "deterministic", sl "确定性")]

/-- Loop body of `exact_term_match`: one pass over the glossary, appending a
match whenever the lowercased key occurs in the lowercased text. -/
def termScan (gl : List (Str × Str)) (text : Str) : List (Str × Str) :=
  match gl with
  | [] => []
  | (k, v) :: rest =>
    if containsB (lowerS text) (lowerS k) then (k, v) :: termScan rest text
    else termScan rest text

/-- `MockStorage.exact_term_match`. -/
def exact_term_match (text : Str) : List (Str × Str) := termScan glossary text

/-! ### The stage orchestrator (`state_transition_logic`) -/

/-- `state_transition_logic`: next speaker from the last speaker's name and
the last message content, by literal marker sniffing; `none` models the
`return None` fallthrough. -/
def state_transition_logic (lastSpeaker lastContent : Str) : Option Str :=
  if lastSpeaker = sl "Translation_Agent" then some (sl "Tag_Checker")
  else if lastSpeaker = sl "Tag_Checker" then
    if containsB lastContent (sl "TAG_OK") then some (sl "Inspector_Agent")
    else some (sl "Translation_Agent")
  else if lastSpeaker = sl "Inspector_Agent" then
    if containsB lastContent (sl "REJECT") then some (sl "Translation_Agent")
    else some (sl "Polisher_Agent")
  else if lastSpeaker = sl "Polisher_Agent" then some (sl "Reid_Agent")
  else none

/-! ### The per-segment validate-and-retry loop of `execute_workflow` -/

/-- Observable outcome of the `while not is_valid and retry_count <=
max_retries` loop. `attempts` counts translations issued (the initial one plus
each re-translation); `lastCheck` records the translation most recently given
to the tag validator together with the validator's verdict. -/
structure SegLoopOut where
  cur : Str
  rc : Nat
  isValid : Bool
  attempts : Nat
  lastCheck : Option (Str × Bool)
deriving DecidableEq, Repr

/-- The loop, with `fuel = max_retries + 1 - retry_count` making the guard
`retry_count <= max_retries` structural. `retrans n` is the translation
produced for retry number `n`; the source instantiates it with the mock
repair text. -/
def segLoop (seg : Str) (retrans : Nat → Str) :
    Nat → Nat → Str → Nat → Option (Str × Bool) → SegLoopOut
  | 0, rc, cur, att, lc => ⟨cur, rc, false, att, lc⟩
  | fuel + 1, rc, cur, att, _ =>
    if check_tags_consistency seg cur then
      ⟨cur, rc, true, att, some (cur, true)⟩
    else
      segLoop seg retrans fuel (rc + 1) (retrans (rc + 1)) (att + 1) (some (cur, false))

/-- The per-segment tail of `execute_workflow`, parametric in the translation
collaborator's outputs: run the validate-and-retry loop starting from the
initial translation, then unconditionally polish and reduce. Returns the
final (reduced) output together with the loop outcome. -/
def processSegmentWith (seg initial : Str) (retrans : Nat → Str) (maxRetries : Nat)
    (mask_map : List (Str × Str)) : Str × SegLoopOut :=
  let out := segLoop seg retrans (maxRetries + 1) 0 initial 1 none
  let polished := sl "润色后的: " ++ out.cur
  (perform_final_reduction polished mask_map, out)

/-- The mock initial translation hard-coded in `execute_workflow`. -/
def mockTranslate (seg : Str) : Str := sl "这是对 '" ++ seg ++ sl "' 的模拟翻译结果。"

/-- The mock repair translation hard-coded in the loop body. -/
def mockRepair (seg : Str) : Str := sl "修复标签后的翻译: " ++ seg

/-- The per-segment tail of `execute_workflow` with the source's own mocks. -/
def processSegment (seg : Str) (mask_map : List (Str × Str)) : Str × SegLoopOut :=
  processSegmentWith seg (mockTranslate seg) (fun _ => mockRepair seg) 2 mask_map

/-! ## Basic lemmas on prefixes, occurrences and counting -/

theorem pfxB_iff (p s : Str) : pfxB p s = true ↔ ∃ r, s = p ++ r := by
  induction p generalizing s with
  | nil => simp [pfxB]
  | cons a as ih =>
    cases s with
    | nil => simp [pfxB]
    | cons b bs =>
      simp only [pfxB, Bool.and_eq_true, decide_eq_true_eq, ih, List.cons_append,
        List.cons.injEq]
      constructor
      · rintro ⟨rfl, r, rfl⟩; exact ⟨r, rfl, rfl⟩
      · rintro ⟨r, rfl, rfl⟩; exact ⟨rfl, r, rfl⟩

theorem containsB_iff (hay p : Str) : containsB hay p = true ↔ OccursIn hay p := by
  unfold OccursIn
  induction hay with
  | nil =>
    simp only [containsB, List.isEmpty_iff]
    constructor
    · rintro rfl; exact ⟨[], [], rfl⟩
    · rintro ⟨a, b, h⟩
      rcases List.append_eq_nil.mp h.symm with ⟨ha, hb⟩
      rcases List.append_eq_nil.mp ha with ⟨-, hp⟩
      exact hp
  | cons c t ih =>
    simp only [containsB, Bool.or_eq_true, pfxB_iff, ih]
    constructor
    · rintro (⟨r, hr⟩ | ⟨a, b, hab⟩)
      · exact ⟨[], r, by simp [hr]⟩
      · exact ⟨c :: a, b, by simp [hab]⟩
    · rintro ⟨a, b, hab⟩
      cases a with
      | nil => exact Or.inl ⟨b, by simpa using hab⟩
      | cons a1 as =>
        right
        simp only [List.cons_append] at hab
        injection hab with h1 h2
        exact ⟨as, b, h2⟩

theorem termScan_eq_filter (gl : List (Str × Str)) (text : Str) :
    termScan gl text = gl.filter (fun e => containsB (lowerS text) (lowerS e.1)) := by
  induction gl with
  | nil => rfl
  | cons e rest ih =>
    obtain ⟨k, v⟩ := e
    simp only [termScan, ih, List.filter_cons]

theorem glossary_nodup : glossary.Nodup := by decide

/-! ## Claim theorems -/

/-- C3: `check_tags_consistency` extracts the `[[...]]` tag sets of source and
candidate and returns ok exactly when both the missing set (source minus
candidate) and the extra set (candidate minus source) are empty; comparison is
as sets, so order-insensitive and duplicate-collapsing. -/
theorem tag_validator_ok_iff (sourceText candidateText : Str) :
    check_tags_consistency sourceText candidateText = true ↔
      ((tagScan sourceText).toFinset \ (tagScan candidateText).toFinset = ∅ ∧
       (tagScan candidateText).toFinset \ (tagScan sourceText).toFinset = ∅) := by
  simp only [check_tags_consistency, Bool.and_eq_true, List.isEmpty_iff,
    List.filter_eq_nil_iff, decide_eq_true_eq, Finset.eq_empty_iff_forall_not_mem,
    Finset.mem_sdiff, List.mem_toFinset, List.mem_dedup, not_and, not_not]

/-- C4 counterexample: on a Tag Validator failure message the Stage
Orchestrator's transition function returns the Translation agent regardless of
any retry count — it never produces a Failed state. -/
theorem failure_escalation_cex :
    state_transition_logic (sl "Tag_Checker")
        (sl "REJECT: Tag mismatch! Please re-translate and fix the tags.") =
      some (sl "Translation_Agent") ∧
    some (sl "Translation_Agent") ≠ some (sl "Failed") := by
  constructor
  · decide
  · decide

/-- C4 amended: `state_transition_logic` has no Failed state and consults no
retry count: whenever the Tag Checker spoke without `TAG_OK` in its message,
or the Inspector spoke with `REJECT` in its message, the next state is
Translate. -/
theorem failure_goes_back_to_translate (content : Str) :
    (containsB content (sl "TAG_OK") = false →
      state_transition_logic (sl "Tag_Checker") content = some (sl "Translation_Agent")) ∧
    (containsB content (sl "REJECT") = true →
      state_transition_logic (sl "Inspector_Agent") content = some (sl "Translation_Agent")) := by
  constructor <;> intro h
  · simp only [state_transition_logic, h]
    rw [if_neg (by decide)]
    simp
  · simp only [state_transition_logic, h]
    rw [if_neg (by decide), if_neg (by decide)]
    simp

/-- C4 witness: the amended transition at a concrete failure message. -/
theorem failure_goes_back_to_translate_witness :
    containsB (sl "REJECT: Tag mismatch!") (sl "TAG_OK") = false ∧
    state_transition_logic (sl "Tag_Checker") (sl "REJECT: Tag mismatch!") =
      some (sl "Translation_Agent") :=
  ⟨by decide, (failure_goes_back_to_translate (sl "REJECT: Tag mismatch!")).1 (by decide)⟩

/-- C10: `exact_term_match` returns one match per glossary key exactly when
the lowercased key occurs as a contiguous substring of the lowercased text;
results follow glossary insertion order (a sublist of the glossary) and each
key appears at most once (the result list has no duplicates). -/
theorem exact_term_match_spec (text : Str) :
    (∀ k v, (k, v) ∈ exact_term_match text ↔
      ((k, v) ∈ glossary ∧ OccursIn (lowerS text) (lowerS k))) ∧
    (exact_term_match text).Sublist glossary ∧
    (exact_term_match text).Nodup := by
  refine ⟨?_, ?_, ?_⟩
  · intro k v
    rw [exact_term_match, termScan_eq_filter]
    simp [List.mem_filter, ← containsB_iff]
  · rw [exact_term_match, termScan_eq_filter]
    exact List.filter_sublist _
  · rw [exact_term_match, termScan_eq_filter]
    exact glossary_nodup.filter _

theorem segLoop_bound (seg : Str) (retrans : Nat → Str) :
    ∀ fuel rc cur att lc,
      (segLoop seg retrans fuel rc cur att lc).attempts ≤ att + fuel ∧
      ((segLoop seg retrans fuel rc cur att lc).isValid = true ∨
        (segLoop seg retrans fuel rc cur att lc).rc = rc + fuel) := by
  intro fuel
  induction fuel with
  | zero => intro rc cur att lc; simp [segLoop]
  | succ fuel ih =>
    intro rc cur att lc
    unfold segLoop
    split
    · simp
    · obtain ⟨h1, h2⟩ := ih (rc + 1) (retrans (rc + 1)) (att + 1) (some (cur, false))
      refine ⟨by omega, ?_⟩
      rcases h2 with h2 | h2
      · exact Or.inl h2
      · exact Or.inr (by omega)

/-- C2 (code evaluation at the failing collaborator behaviour): when every
candidate translation fails the tag check, the loop exits by exhaustion with
`is_valid = False` — the most recent Tag Validator verdict is a failure and
the final retry translation was never checked at all — yet the code still
polishes the segment and passes it to `perform_final_reduction`, emitting a
reduced output. The segment reaches Restore without having passed the check. -/
theorem restore_gate_violation :
    (processSegmentWith (sl "[[EMAIL_0000]] Hi.") (sl "keine tags") (fun _ => sl "keine tags") 2
        [(sl "[[EMAIL_0000]]", sl "dev@autogen.ai")]).2.isValid = false ∧
    (processSegmentWith (sl "[[EMAIL_0000]] Hi.") (sl "keine tags") (fun _ => sl "keine tags") 2
        [(sl "[[EMAIL_0000]]", sl "dev@autogen.ai")]).2.lastCheck =
      some (sl "keine tags", false) ∧
    (processSegmentWith (sl "[[EMAIL_0000]] Hi.") (sl "keine tags") (fun _ => sl "keine tags") 2
        [(sl "[[EMAIL_0000]]", sl "dev@autogen.ai")]).1 = sl "润色后的: keine tags" := by
  decide

/-- C5 counterexample: with `max_retries = 2` and every candidate failing the
tag check, the loop issues 4 translation attempts (the initial one plus three
retries, the last of which is never validated), exceeding the claimed
`maxRetries + 1 = 3` bound. -/
theorem retry_attempts_cex :
    (processSegmentWith (sl "[[URL_0000]] go.") (sl "x") (fun _ => sl "x") 2
        []).2.attempts = 4 ∧
    ¬ ((processSegmentWith (sl "[[URL_0000]] go.") (sl "x") (fun _ => sl "x") 2
        []).2.attempts ≤ 2 + 1) := by
  decide

/-- C5 amended: the per-segment validate-and-retry loop always terminates,
exiting either with a passing check (`is_valid`) or with the retry count just
past the bound, after at most `maxRetries + 2` translation attempts in total
(`maxRetries + 1` tag checks; the final retry translation is issued but never
validated). -/
theorem retry_termination_bound (seg initial : Str) (retrans : Nat → Str)
    (maxRetries : Nat) (mm : List (Str × Str)) :
    (processSegmentWith seg initial retrans maxRetries mm).2.attempts ≤ maxRetries + 2 ∧
    ((processSegmentWith seg initial retrans maxRetries mm).2.isValid = true ∨
      (processSegmentWith seg initial retrans maxRetries mm).2.rc = maxRetries + 1) := by
  obtain ⟨h1, h2⟩ := segLoop_bound seg retrans (maxRetries + 1) 0 initial 1 none
  refine ⟨?_, ?_⟩
  · show (segLoop seg retrans (maxRetries + 1) 0 initial 1 none).attempts ≤ maxRetries + 2
    omega
  · show (segLoop seg retrans (maxRetries + 1) 0 initial 1 none).isValid = true ∨
      (segLoop seg retrans (maxRetries + 1) 0 initial 1 none).rc = maxRetries + 1
    rcases h2 with h2 | h2
    · exact Or.inl h2
    · exact Or.inr (by omega)

theorem replaceAllF_of_not_contains (p o : Str) :
    ∀ fuel t, t.length ≤ fuel → containsB t p = false → replaceAllF p o fuel t = t := by
  intro fuel
  induction fuel with
  | zero =>
    intro t ht _
    have : t = [] := List.length_eq_zero.mp (Nat.le_zero.mp ht)
    subst this; rfl
  | succ fuel ih =>
    intro t ht hc
    cases t with
    | nil => rfl
    | cons c cs =>
      simp only [containsB, Bool.or_eq_false_iff] at hc
      obtain ⟨hp, hcs⟩ := hc
      simp only [replaceAllF, hp, Bool.false_eq_true, if_false]
      rw [ih cs (by simpa using Nat.lt_succ_iff.mp (Nat.lt_of_lt_of_le (by simp) ht)) hcs]

theorem replaceAll_of_not_contains (t p o : Str) (h : containsB t p = false) :
    replaceAll t p o = t := by
  unfold replaceAll
  split
  · rfl
  · exact replaceAllF_of_not_contains p o t.length t le_rfl h

/-- C9 counterexample: the Reducer silently emits a raw unmapped placeholder:
reducing a text holding the unmapped `[[EMAIL_ZZZZ]]` leaves the placeholder
verbatim in the final output, and no failure of any kind is reported (the
function has no failure channel and `execute_workflow` appends the result to
`final_results` unconditionally). -/
theorem unmapped_placeholder_cex :
    perform_final_reduction (sl "请联系 [[EMAIL_ZZZZ]] 获取支持。")
        [(sl "[[EMAIL_0000]]", sl "support@autogen.ai")] =
      sl "请联系 [[EMAIL_ZZZZ]] 获取支持。" ∧
    containsB (perform_final_reduction (sl "请联系 [[EMAIL_ZZZZ]] 获取支持。")
        [(sl "[[EMAIL_0000]]", sl "support@autogen.ai")]) (sl "[[EMAIL_ZZZZ]]") = true := by
  decide

/-- C9 amended: placeholders with no registry entry pass through the Reducer
verbatim: whenever no mask-map key occurs in a text, `perform_final_reduction`
is the identity on it, so the raw unmapped placeholder is emitted into the
final output and the segment is not failed. -/
theorem unmapped_placeholder_passthrough (t : Str) (mm : List (Str × Str))
    (h : ∀ e ∈ mm, containsB t e.1 = false) :
    perform_final_reduction t mm = t := by
  induction mm with
  | nil => rfl
  | cons e rest ih =>
    unfold perform_final_reduction at *
    simp only [List.foldl_cons]
    rw [replaceAll_of_not_contains t e.1 e.2 (h e (by simp))]
    exact ih fun e' he' => h e' (by simp [he'])

/-- C9 witness: the amended pass-through behaviour at a concrete unmapped
placeholder. -/
theorem unmapped_placeholder_passthrough_witness :
    (∀ e ∈ [(sl "[[EMAIL_0000]]", sl "a@b.cd")],
      containsB (sl "[[EMAIL_ZZZZ]] hi") e.1 = false) ∧
    perform_final_reduction (sl "[[EMAIL_ZZZZ]] hi") [(sl "[[EMAIL_0000]]", sl "a@b.cd")] =
      sl "[[EMAIL_ZZZZ]] hi" :=
  ⟨by decide, unmapped_placeholder_passthrough _ _ (by decide)⟩

/-! ## Structure of generated placeholders -/

theorem midC_not_lbracket {c : Char} (h : midC c = true) : c ≠ '[' := by
  intro heq; exact absurd (heq ▸ h) (by decide)

theorem midC_not_rbracket {c : Char} (h : midC c = true) : c ≠ ']' := by
  intro heq; exact absurd (heq ▸ h) (by decide)

theorem midC_not_at {c : Char} (h : midC c = true) : c ≠ '@' := by
  intro heq; exact absurd (heq ▸ h) (by decide)

theorem midC_not_h {c : Char} (h : midC c = true) : c ≠ 'h' := by
  intro heq; exact absurd (heq ▸ h) (by decide)

theorem midC_not_delim {c : Char} (h : midC c = true) : delimC c = false := by
  by_contra hd
  simp only [Bool.not_eq_false, delimC, Bool.or_eq_true, decide_eq_true_eq] at hd
  rcases hd with ((((h1 | h1) | h1) | h1) | h1) | h1 <;> subst h1 <;> exact absurd h (by decide)

theorem midC_not_space {c : Char} (h : midC c = true) : isSpaceC c = false := by
  by_contra hd
  simp only [Bool.not_eq_false, isSpaceC, Bool.or_eq_true, decide_eq_true_eq] at hd
  rcases hd with ((((h1 | h1) | h1) | h1) | h1) | h1 <;> subst h1 <;> exact absurd h (by decide)

theorem midC_isLocalC {c : Char} (h : midC c = true) : isLocalC c = true := by
  simp only [midC, Bool.or_eq_true, decide_eq_true_eq] at h
  simp only [isLocalC, Char.isAlpha, Bool.or_eq_true, decide_eq_true_eq]
  tauto

theorem midC_isWordC {c : Char} (h : midC c = true) : isWordC c = true := by
  simp only [midC, Bool.or_eq_true, decide_eq_true_eq] at h
  simp only [isWordC, Char.isAlpha, Bool.or_eq_true, decide_eq_true_eq]
  tauto

theorem isUpper_not_digit {c : Char} (h : c.isUpper = true) : c.isDigit = false := by
  simp only [Char.isUpper, Bool.and_eq_true, decide_eq_true_eq] at h
  simp only [Char.isDigit, Bool.and_eq_false_iff, decide_eq_false_iff_not]
  right
  intro hc
  have h65 : (65 : UInt32) ≤ c.val := h.1
  have h57 : c.val ≤ (57 : UInt32) := hc
  have h1 : (65 : UInt32).toNat ≤ c.val.toNat := by exact_mod_cast h65
  have h2 : c.val.toNat ≤ (57 : UInt32).toNat := by exact_mod_cast h57
  simp [UInt32.toNat] at h1 h2
  omega

theorem hexDig_midC : ∀ n < 16, midC (hexDig n) = true := by decide

theorem hexValD_hexDig : ∀ n < 16, hexValD (hexDig n) = n := by decide

theorem hexVal_append_dig (xs : Str) (c : Char) :
    hexVal (xs ++ [c]) = 16 * hexVal xs + hexValD c := by
  unfold hexVal
  rw [List.foldl_append]
  rfl

theorem hexCharsF_midC : ∀ fuel n, ∀ c ∈ hexCharsF fuel n, midC c = true := by
  intro fuel
  induction fuel with
  | zero =>
    intro n c hc
    simp only [hexCharsF, List.mem_singleton] at hc
    exact hc ▸ hexDig_midC _ (Nat.mod_lt _ (by omega))
  | succ fuel ih =>
    intro n c hc
    simp only [hexCharsF] at hc
    split at hc
    · simp only [List.mem_singleton] at hc
      exact hc ▸ hexDig_midC _ (by omega)
    · rcases List.mem_append.mp hc with h | h
      · exact ih _ _ h
      · simp only [List.mem_singleton] at h
        exact h ▸ hexDig_midC _ (Nat.mod_lt _ (by omega))

theorem hexCharsF_val : ∀ fuel n, n ≤ fuel → hexVal (hexCharsF fuel n) = n := by
  intro fuel
  induction fuel with
  | zero =>
    intro n hn
    have : n = 0 := by omega
    subst this
    simp [hexCharsF, hexVal]
    decide
  | succ fuel ih =>
    intro n hn
    simp only [hexCharsF]
    split
    · simp only [hexVal, List.foldl_cons, List.foldl_nil]
      have := hexValD_hexDig n (by omega)
      omega
    · rename_i hlt
      rw [hexVal_append_dig, ih (n / 16) (by omega)]
      have := hexValD_hexDig (n % 16) (Nat.mod_lt _ (by omega))
      omega

theorem hexVal_hexChars (n : Nat) : hexVal (hexChars n) = n :=
  hexCharsF_val n n le_rfl

theorem hexVal_pad_zeros (k : Nat) (s : Str) :
    hexVal (List.replicate k '0' ++ s) = hexVal s := by
  induction k with
  | zero => simp
  | succ k ih =>
    simp only [List.replicate_succ, List.cons_append, hexVal, List.foldl_cons] at *
    have h0 : (16 * 0 + hexValD '0') = 0 := by decide
    simpa [h0] using ih

theorem hexPad_inj {m n : Nat} (h : hexPad m = hexPad n) : m = n := by
  have hv := congrArg hexVal h
  rwa [hexPad, hexPad, hexVal_pad_zeros, hexVal_pad_zeros, hexVal_hexChars,
    hexVal_hexChars] at hv

theorem hexPad_midC {n : Nat} : ∀ c ∈ hexPad n, midC c = true := by
  intro c hc
  rcases List.mem_append.mp hc with h | h
  · have := List.eq_of_mem_replicate h
    subst this; decide
  · exact hexCharsF_midC _ _ _ h

theorem phMid_midC {lab : Str} (hlab : ∀ c ∈ lab, midC c = true) (n : Nat) :
    ∀ c ∈ phMid lab n, midC c = true := by
  intro c hc
  rcases List.mem_append.mp hc with h | h
  · exact hlab _ h
  · rcases List.mem_cons.mp h with h | h
    · subst h; decide
    · exact hexPad_midC _ h

theorem labels_midC :
    (∀ c ∈ labE, midC c = true) ∧ (∀ c ∈ labI, midC c = true) ∧
      (∀ c ∈ labU, midC c = true) := by decide

theorem PhMidP_phMid {lab : Str} (h1 : ∃ c cs, lab = c :: cs ∧ c.isUpper = true)
    (h2 : ∀ c ∈ lab, midC c = true) (n : Nat) : PhMidP (phMid lab n) := by
  obtain ⟨c, cs, rfl, hc⟩ := h1
  exact ⟨⟨c, cs ++ '_' :: hexPad n, by simp [phMid], hc⟩, phMid_midC h2 n⟩

theorem PhMidP_E (n : Nat) : PhMidP (phMid labE n) :=
  PhMidP_phMid ⟨'E', _, rfl, by decide⟩ labels_midC.1 n

theorem PhMidP_I (n : Nat) : PhMidP (phMid labI n) :=
  PhMidP_phMid ⟨'I', _, rfl, by decide⟩ labels_midC.2.1 n

theorem PhMidP_U (n : Nat) : PhMidP (phMid labU n) :=
  PhMidP_phMid ⟨'U', _, rfl, by decide⟩ labels_midC.2.2 n

theorem phWrap_inj {m1 m2 : Str} (h : phWrap m1 = phWrap m2) : m1 = m2 := by
  simp only [phWrap, List.cons.injEq, true_and] at h
  exact List.append_cancel_right h

theorem phKey_ne {lab1 lab2 : Str} {m n : Nat}
    (h1 : lab1 = labE ∨ lab1 = labI ∨ lab1 = labU)
    (h2 : lab2 = labE ∨ lab2 = labI ∨ lab2 = labU) (hmn : m ≠ n) :
    phKey lab1 m ≠ phKey lab2 n := by
  intro h
  have h' := phWrap_inj h
  rcases h1 with rfl | rfl | rfl <;> rcases h2 with rfl | rfl | rfl <;>
    simp only [phMid, labE, labI, labU, List.cons_append, List.nil_append,
      List.cons.injEq] at h' <;>
    exact hmn (hexPad_inj (by tauto))

theorem mid_close_eq {m1 m2 b : Str}
    (hb1 : ∀ c ∈ m1, c ≠ ']') (hb2 : ∀ c ∈ m2, c ≠ ']')
    (h : m1 ++ ']' :: ']' :: b = m2 ++ [']', ']']) : m1 = m2 ∧ b = [] := by
  induction m1 generalizing m2 with
  | nil =>
    cases m2 with
    | nil =>
      simp only [List.nil_append, List.cons.injEq, true_and] at h
      simp_all
    | cons d m2' =>
      simp only [List.nil_append, List.cons_append, List.cons.injEq] at h
      exact absurd h.1.symm (hb2 d (by simp))
  | cons c m1' ih =>
    cases m2 with
    | nil =>
      simp only [List.cons_append, List.nil_append, List.cons.injEq] at h
      exact absurd h.1 (hb1 c (by simp))
    | cons d m2' =>
      simp only [List.cons_append, List.cons.injEq] at h
      obtain ⟨rfl, h2⟩ := h
      obtain ⟨rfl, hb⟩ := ih (fun x hx => hb1 x (by simp [hx]))
        (fun x hx => hb2 x (by simp [hx])) h2
      exact ⟨rfl, hb⟩

theorem phWrap_not_occursIn {m1 m2 : Str}
    (hb1 : ∀ c ∈ m1, c ≠ '[' ∧ c ≠ ']') (hb2 : ∀ c ∈ m2, c ≠ '[' ∧ c ≠ ']')
    (hne : phWrap m1 ≠ phWrap m2) :
    ¬ OccursIn (phWrap m2) (phWrap m1) := by
  rintro ⟨a, b, hab⟩
  cases a with
  | nil =>
    rw [List.nil_append] at hab
    simp only [phWrap, List.cons_append, List.cons.injEq, true_and] at hab
    have h' : m1 ++ ']' :: ']' :: b = m2 ++ [']', ']'] := by
      rw [List.append_assoc] at hab
      simpa using hab.symm
    obtain ⟨rfl, -⟩ :=
      mid_close_eq (fun c hc => (hb1 c hc).2) (fun c hc => (hb2 c hc).2) h'
    exact hne rfl
  | cons a1 a' =>
    simp only [phWrap, List.cons_append] at hab
    injection hab with h1 h2
    cases a' with
    | nil =>
      rw [List.nil_append] at h2
      simp only [List.cons_append] at h2
      injection h2 with h3 h4
      cases m2 with
      | nil =>
        injection h4 with h5 _
        exact absurd h5 (by decide)
      | cons d m2' =>
        injection h4 with h5 _
        exact (hb2 d (by simp)).1 h5
    | cons a2 a'' =>
      simp only [List.cons_append] at h2
      injection h2 with h3 h4
      have hmem : '[' ∈ m2 ++ [']', ']'] := by
        rw [h4]
        simp
      rcases List.mem_append.mp hmem with hm | hm
      · exact (hb2 _ hm).1 rfl
      · exact absurd hm (by decide)

theorem entriesM_consRaw (c : Char) (ts : List MTok) :
    entriesM (consRaw c ts) = entriesM ts := by
  cases ts with
  | nil => rfl
  | cons t ts => cases t <;> rfl

theorem scanPassF_keys (m : Option Char → Str → Option Nat) (mk : Nat → Str) :
    ∀ fuel prev s ctr, ∃ k,
      (scanPassF m mk fuel prev s ctr).2 = ctr + k ∧
      (entriesM (scanPassF m mk fuel prev s ctr).1).map Prod.fst =
        (List.range' ctr k).map mk := by
  intro fuel
  induction fuel with
  | zero => intro prev s ctr; exact ⟨0, rfl, rfl⟩
  | succ fuel ih =>
    intro prev s ctr
    cases s with
    | nil => exact ⟨0, rfl, rfl⟩
    | cons c cs =>
      simp only [scanPassF]
      cases hm : m prev (c :: cs) with
      | some n =>
        simp only
        obtain ⟨k, hk1, hk2⟩ := ih ((c :: cs).take (max n 1)).getLast? (cs.drop (max n 1 - 1))
          (ctr + 1)
        refine ⟨k + 1, by omega, ?_⟩
        simp only [entriesM, List.map_cons, hk2, List.range'_succ, List.map_cons]
      | none =>
        obtain ⟨k, hk1, hk2⟩ := ih (some c) cs ctr
        exact ⟨k, hk1, by simpa [entriesM_consRaw] using hk2⟩


/-! ## No sensitive pattern matches inside a generated placeholder -/

theorem runLen_all_stop {p : Char → Bool} {xs : Str} {y : Char} (rest : Str)
    (hxs : ∀ x ∈ xs, p x = true) (hy : p y = false) :
    runLen p (xs ++ y :: rest) = xs.length := by
  induction xs with
  | nil => simp [runLen, hy]
  | cons x xs ih =>
    have h1 : p x = true := hxs x (by simp)
    simp only [List.cons_append, runLen, h1, if_true, List.length_cons, List.append_eq]
    rw [ih (fun z hz => hxs z (by simp [hz]))]

theorem emailLen_not_local {c : Char} (s : Str) (hc : isLocalC c = false) :
    emailLen (c :: s) = none := by
  simp [emailLen, runLen, hc]

theorem emailLen_mid_close {xs rest : Str} (hxs : ∀ x ∈ xs, isLocalC x = true)
    (hne : xs ≠ []) : emailLen (xs ++ ']' :: rest) = none := by
  have hr := runLen_all_stop (p := isLocalC) (y := ']') rest hxs (by decide)
  simp only [emailLen, hr]
  rw [if_neg (by simpa using hne)]
  rw [List.drop_left]
  rfl

theorem ipGroup_not_digit {c : Char} (s : Str) (hc : c.isDigit = false) :
    ipGroup (c :: s) = none := by
  simp [ipGroup, runLen, hc]

theorem ipM_of_group_none {prev : Option Char} {s : Str} (h : ipGroup s = none) :
    ipM prev s = none := by
  unfold ipM
  rw [h]
  split <;> rfl

theorem ipM_of_prev_word {w : Char} {s : Str} (hw : isWordC w = true) :
    ipM (some w) s = none := by
  unfold ipM
  rw [if_pos hw]

theorem urlLen_ne_h {c : Char} (s : Str) (hc : c ≠ 'h') : urlLen (c :: s) = none := by
  unfold urlLen
  split
  · rename_i heq
    injection heq with h1 _
    exact absurd h1 hc
  · rfl

theorem getLast?_cons_of_ne_nil {a : Char} {l : Str} (h : l ≠ []) :
    (a :: l).getLast? = l.getLast? := by
  cases l with
  | nil => exact absurd rfl h
  | cons b l' => exact List.getLast?_cons_cons

theorem mid_split {mid : Str} : ∀ u c v, mid ++ [']', ']'] = u ++ c :: v →
    ((c = ']' ∨ (c ∈ mid ∧ ∃ ms, v = ms ++ [']', ']'] ∧ ∀ x ∈ ms, x ∈ mid)) ∧
     (∀ w, u.getLast? = some w → (w ∈ mid ∨ c = ']'))) := by
  induction mid with
  | nil =>
    intro u c v h
    simp only [List.nil_append] at h
    cases u with
    | nil =>
      simp only [List.nil_append] at h
      injection h with h1 _
      exact ⟨Or.inl h1.symm, fun w hw => by simp at hw⟩
    | cons u1 u' =>
      simp only [List.cons_append] at h
      injection h with h1 h2
      cases u' with
      | nil =>
        simp only [List.nil_append] at h2
        injection h2 with h3 _
        refine ⟨Or.inl h3.symm, fun w hw => ?_⟩
        simp only [List.getLast?_singleton, Option.some.injEq] at hw
        exact Or.inr h3.symm
      | cons u2 u'' =>
        simp only [List.cons_append] at h2
        injection h2 with h3 h4
        exact absurd h4 (by simp)
  | cons x mid' ih =>
    intro u c v h
    cases u with
    | nil =>
      simp only [List.cons_append, List.nil_append] at h
      injection h with h1 h2
      exact ⟨Or.inr ⟨by simp [h1], mid', h2.symm, fun y hy => by simp [hy]⟩,
        fun w hw => by simp at hw⟩
    | cons u1 u' =>
      simp only [List.cons_append] at h
      injection h with h1 h2
      obtain ⟨d1, d2⟩ := ih u' c v h2
      refine ⟨?_, ?_⟩
      · rcases d1 with d1 | ⟨hc, ms, hv, hms⟩
        · exact Or.inl d1
        · exact Or.inr ⟨by simp [hc], ms, hv, fun y hy => by simp [hms y hy]⟩
      · intro w hw
        cases u' with
        | nil =>
          simp only [List.getLast?_singleton, Option.some.injEq] at hw
          subst hw
          exact Or.inl (by simp [h1])
        | cons u2 u'' =>
          rw [List.getLast?_cons_cons] at hw
          rcases d2 w hw with d | d
          · exact Or.inl (by simp [d])
          · exact Or.inr d

theorem emailM_none_inside {mid : Str} (hm : PhMidP mid) :
    ∀ u c v (B : Str) (prev : Option Char), phWrap mid = u ++ c :: v →
      emailM prev (c :: (v ++ B)) = none := by
  intro u c v B prev h
  obtain ⟨⟨c0, cs0, hmid, hc0⟩, hmidC⟩ := hm
  show emailLen (c :: (v ++ B)) = none
  cases u with
  | nil =>
    rw [List.nil_append] at h
    injection h with h1 _
    exact h1 ▸ emailLen_not_local _ (by decide)
  | cons u1 u' =>
    simp only [phWrap, List.cons_append] at h
    injection h with h1 h2
    cases u' with
    | nil =>
      rw [List.nil_append] at h2
      injection h2 with h3 _
      exact h3 ▸ emailLen_not_local _ (by decide)
    | cons u2 u'' =>
      simp only [List.cons_append] at h2
      injection h2 with h3 h4
      obtain ⟨d1, -⟩ := mid_split u'' c v h4
      rcases d1 with rfl | ⟨hc, ms, hv, hms⟩
      · exact emailLen_not_local _ (by decide)
      · have hsplit : c :: (v ++ B) = (c :: ms) ++ ']' :: (']' :: B) := by
          simp [hv]
        rw [hsplit]
        exact emailLen_mid_close
          (fun x hx => by
            rcases List.mem_cons.mp hx with rfl | hx
            · exact midC_isLocalC (hmidC x hc)
            · exact midC_isLocalC (hmidC x (hms x hx)))
          (by simp)

theorem ipM_none_inside {mid : Str} (hm : PhMidP mid) :
    ∀ u c v (B : Str) (prev : Option Char), phWrap mid = u ++ c :: v →
      (u ≠ [] → prev = u.getLast?) →
      ipM prev (c :: (v ++ B)) = none := by
  intro u c v B prev h hprev
  obtain ⟨⟨c0, cs0, hmid, hc0⟩, hmidC⟩ := hm
  cases u with
  | nil =>
    rw [List.nil_append] at h
    injection h with h1 _
    exact ipM_of_group_none (h1 ▸ ipGroup_not_digit _ (by decide))
  | cons u1 u' =>
    simp only [phWrap, List.cons_append] at h
    injection h with h1 h2
    cases u' with
    | nil =>
      rw [List.nil_append] at h2
      injection h2 with h3 _
      exact ipM_of_group_none (h3 ▸ ipGroup_not_digit _ (by decide))
    | cons u2 u'' =>
      simp only [List.cons_append] at h2
      injection h2 with h3 h4
      obtain ⟨d1, d2⟩ := mid_split u'' c v h4
      cases u'' with
      | nil =>
        rw [List.nil_append] at h4
        rw [hmid] at h4
        simp only [List.cons_append] at h4
        injection h4 with h5 _
        exact ipM_of_group_none (h5 ▸ ipGroup_not_digit _ (isUpper_not_digit hc0))
      | cons y u''' =>
        have hlast : ∃ w, (y :: u''').getLast? = some w := by
          cases hgl : (y :: u''').getLast? with
          | none => exact absurd hgl (by simp)
          | some w => exact ⟨w, rfl⟩
        obtain ⟨w, hw⟩ := hlast
        rcases d2 w hw with hwmid | rfl
        · have hpv : prev = some w := by
            rw [hprev (by simp), getLast?_cons_of_ne_nil (by simp),
              getLast?_cons_of_ne_nil (by simp)]
            exact hw
          exact hpv ▸ ipM_of_prev_word (midC_isWordC (hmidC w hwmid))
        · exact ipM_of_group_none (ipGroup_not_digit _ (by decide))

theorem urlM_none_inside {mid : Str} (hm : PhMidP mid) :
    ∀ u c v (B : Str) (prev : Option Char), phWrap mid = u ++ c :: v →
      urlM prev (c :: (v ++ B)) = none := by
  intro u c v B prev h
  obtain ⟨⟨c0, cs0, hmid, hc0⟩, hmidC⟩ := hm
  show urlLen (c :: (v ++ B)) = none
  cases u with
  | nil =>
    rw [List.nil_append] at h
    injection h with h1 _
    exact urlLen_ne_h _ (h1 ▸ (by decide))
  | cons u1 u' =>
    simp only [phWrap, List.cons_append] at h
    injection h with h1 h2
    cases u' with
    | nil =>
      rw [List.nil_append] at h2
      injection h2 with h3 _
      exact urlLen_ne_h _ (h3 ▸ (by decide))
    | cons u2 u'' =>
      simp only [List.cons_append] at h2
      injection h2 with h3 h4
      obtain ⟨d1, -⟩ := mid_split u'' c v h4
      rcases d1 with rfl | ⟨hc, -, -, -⟩
      · exact urlLen_ne_h _ (by decide)
      · exact urlLen_ne_h _ (midC_not_h (hmidC c hc))

theorem renderM_consRaw (c : Char) (ts : List MTok) :
    renderM (consRaw c ts) = c :: renderM ts := by
  cases ts with
  | nil => rfl
  | cons t ts' => cases t <;> rfl

theorem renderM_foldr_consRaw (x : Str) (ts : List MTok) :
    renderM (x.foldr consRaw ts) = x ++ renderM ts := by
  induction x with
  | nil => rfl
  | cons c x' ih => simp [List.foldr_cons, renderM_consRaw, ih]

theorem entriesM_foldr_consRaw (x : Str) (ts : List MTok) :
    entriesM (x.foldr consRaw ts) = entriesM ts := by
  induction x with
  | nil => rfl
  | cons c x' ih => simp [List.foldr_cons, entriesM_consRaw, ih]

theorem scanPassF_walk (m : Option Char → Str → Option Nat) (mk : Nat → Str) :
    ∀ (x B : Str) (prev : Option Char) (ctr : Nat),
      (∀ u c v, x = u ++ c :: v →
        m (if u.isEmpty then prev else u.getLast?) (c :: (v ++ B)) = none) →
      scanPassF m mk (x ++ B).length prev (x ++ B) ctr =
        (x.foldr consRaw
            (scanPassF m mk B.length (if x.isEmpty then prev else x.getLast?) B ctr).1,
         (scanPassF m mk B.length (if x.isEmpty then prev else x.getLast?) B ctr).2) := by
  intro x
  induction x with
  | nil =>
    intro B prev ctr H
    simp
  | cons c x' ih =>
    intro B prev ctr H
    have hm : m prev (c :: (x' ++ B)) = none := by simpa using H [] c x' rfl
    have H' : ∀ u c' v, x' = u ++ c' :: v →
        m (if u.isEmpty then some c else u.getLast?) (c' :: (v ++ B)) = none := by
      intro u c' v hx
      have hH := H (c :: u) c' v (by simp [hx])
      cases u with
      | nil => simpa using hH
      | cons u1 u'' =>
        rw [show ((c :: u1 :: u'').isEmpty) = false from rfl] at hH
        rw [getLast?_cons_of_ne_nil (by simp)] at hH
        simpa using hH
    have hpv : (if x'.isEmpty then some c else x'.getLast?) =
        (c :: x').getLast? := by
      cases x' with
      | nil => rfl
      | cons y x'' =>
        rw [show ((y :: x'').isEmpty) = false from rfl]
        simp only [Bool.false_eq_true, if_false]
        exact (getLast?_cons_of_ne_nil (by simp)).symm
    rw [List.cons_append]
    show scanPassF m mk (c :: (x' ++ B)).length prev (c :: (x' ++ B)) ctr = _
    rw [List.length_cons]
    simp only [scanPassF, hm]
    rw [ih B (some c) ctr H']
    simp only [List.foldr_cons, hpv]
    rw [show ((c :: x').isEmpty) = false from rfl]
    simp

theorem phWrap_getLast (mid : Str) : (phWrap mid).getLast? = some ']' := by
  have h : phWrap mid = ('[' :: '[' :: mid ++ [']']) ++ [']'] := by
    simp [phWrap]
  rw [h, List.getLast?_concat]

theorem scanPassF_ph_skip (m : Option Char → Str → Option Nat) (mk : Nat → Str)
    {mid : Str}
    (Hnone : ∀ u c v (B : Str) (prev : Option Char), phWrap mid = u ++ c :: v →
      (u ≠ [] → prev = u.getLast?) → m prev (c :: (v ++ B)) = none)
    (B : Str) (prev : Option Char) (ctr : Nat) :
    scanPassF m mk (phWrap mid ++ B).length prev (phWrap mid ++ B) ctr =
      ((phWrap mid).foldr consRaw (scanPassF m mk B.length (some ']') B ctr).1,
       (scanPassF m mk B.length (some ']') B ctr).2) := by
  have H : ∀ u c v, phWrap mid = u ++ c :: v →
      m (if u.isEmpty then prev else u.getLast?) (c :: (v ++ B)) = none := by
    intro u c v h
    refine Hnone u c v B _ h ?_
    intro hu
    cases u with
    | nil => exact absurd rfl hu
    | cons u1 u' => rfl
  rw [scanPassF_walk m mk (phWrap mid) B prev ctr H]
  rw [show ((phWrap mid).isEmpty) = false from rfl]
  simp [phWrap_getLast]

theorem scanPass_phWrap_id (m : Option Char → Str → Option Nat) (mk : Nat → Str)
    {mid : Str}
    (Hnone : ∀ u c v (B : Str) (prev : Option Char), phWrap mid = u ++ c :: v →
      (u ≠ [] → prev = u.getLast?) → m prev (c :: (v ++ B)) = none)
    (prev : Option Char) (ctr : Nat) :
    renderM (scanPass m mk prev (phWrap mid) ctr).1 = phWrap mid ∧
    entriesM (scanPass m mk prev (phWrap mid) ctr).1 = [] ∧
    (scanPass m mk prev (phWrap mid) ctr).2 = ctr := by
  have h0 : scanPass m mk prev (phWrap mid) ctr =
      scanPassF m mk (phWrap mid ++ []).length prev (phWrap mid ++ []) ctr := by
    rw [List.append_nil]
    rfl
  have h1 := scanPassF_ph_skip m mk Hnone [] prev ctr
  have h2 : scanPassF m mk ([] : Str).length (some ']') [] ctr = ([], ctr) := rfl
  rw [h0, h1, h2]
  refine ⟨?_, ?_, rfl⟩
  · rw [renderM_foldr_consRaw]
    simp [renderM]
  · rw [entriesM_foldr_consRaw]
    rfl

/-- C8: no generated placeholder matches any sensitive-pattern category: for
every counter value, running the full Masker over the bare placeholder
`[[EMAIL_...]]`, `[[IP_...]]` or `[[URL_...]]` finds no EMAIL, IP or URL match
at any position, returns the placeholder text unchanged, and records no new
registry entry — so re-masking already-masked text leaves the placeholders
and the registry entries for them unchanged. -/
theorem masker_placeholder_identity (n : Nat) :
    local_masking_logic (phKey labE n) = (phKey labE n, []) ∧
    local_masking_logic (phKey labI n) = (phKey labI n, []) ∧
    local_masking_logic (phKey labU n) = (phKey labU n, []) := by
  have main : ∀ lab : Str, (lab = labE ∨ lab = labI ∨ lab = labU) →
      local_masking_logic (phKey lab n) = (phKey lab n, []) := by
    intro lab hlab
    have hmid : PhMidP (phMid lab n) := by
      rcases hlab with rfl | rfl | rfl
      · exact PhMidP_E n
      · exact PhMidP_I n
      · exact PhMidP_U n
    have hE := scanPass_phWrap_id emailM (phKey labE)
      (fun u c v B prev h _ => emailM_none_inside hmid u c v B prev h) none 0
    have hkey : phKey lab n = phWrap (phMid lab n) := rfl
    rw [hkey]
    have hmE : maskPassE (phWrap (phMid lab n)) =
        (scanPass emailM (phKey labE) none (phWrap (phMid lab n)) 0) := rfl
    have hrE : renderM (maskPassE (phWrap (phMid lab n))).1 = phWrap (phMid lab n) := by
      rw [hmE]; exact hE.1
    have hcE : (maskPassE (phWrap (phMid lab n))).2 = 0 := by
      rw [hmE]; exact hE.2.2
    have hI := scanPass_phWrap_id ipM (phKey labI)
      (fun u c v B prev h hp => ipM_none_inside hmid u c v B prev h hp) none 0
    have hmI : maskPassI (phWrap (phMid lab n)) =
        scanPass ipM (phKey labI) none (phWrap (phMid lab n)) 0 := by
      rw [maskPassI, hrE, hcE]
    have hrI : renderM (maskPassI (phWrap (phMid lab n))).1 = phWrap (phMid lab n) := by
      rw [hmI]; exact hI.1
    have hcI : (maskPassI (phWrap (phMid lab n))).2 = 0 := by
      rw [hmI]; exact hI.2.2
    have hU := scanPass_phWrap_id urlM (phKey labU)
      (fun u c v B prev h _ => urlM_none_inside hmid u c v B prev h) none 0
    have hmU : maskPassU (phWrap (phMid lab n)) =
        scanPass urlM (phKey labU) none (phWrap (phMid lab n)) 0 := by
      rw [maskPassU, hrI, hcI]
    have hrU : renderM (maskPassU (phWrap (phMid lab n))).1 = phWrap (phMid lab n) := by
      rw [hmU]; exact hU.1
    simp only [local_masking_logic, hrU]
    rw [hmE, hmI, hmU]
    rw [hE.2.1, hI.2.1, hU.2.1]
    rfl
  exact ⟨main labE (Or.inl rfl), main labI (Or.inr (Or.inl rfl)),
    main labU (Or.inr (Or.inr rfl))⟩

/-! ## Occurrence counting across the Segmenter -/

theorem pfxB_append_cons_eq {p a ext : Str} {x : Char} (hx : x ∉ p) :
    pfxB p (a ++ x :: ext) = pfxB p a := by
  cases hpa : pfxB p a with
  | true =>
    obtain ⟨r, rfl⟩ := (pfxB_iff p a).mp hpa
    exact (pfxB_iff _ _).mpr ⟨r ++ x :: ext, by simp⟩
  | false =>
    cases hpe : pfxB p (a ++ x :: ext) with
    | false => rfl
    | true =>
      obtain ⟨r, hr⟩ := (pfxB_iff _ _).mp hpe
      rcases List.append_eq_append_iff.mp hr with ⟨a', ha1, ha2⟩ | ⟨c', hc1, hc2⟩
      · cases a' with
        | nil =>
          rw [List.append_nil] at ha1
          exact absurd ((pfxB_iff p a).mpr ⟨[], by simp [ha1]⟩) (by simp [hpa])
        | cons y a'' =>
          have hxy : x = y := by
            have hh := congrArg (fun l => l.headD ' ') ha2
            simpa using hh
          exact absurd (ha1 ▸ List.mem_append.mpr (Or.inr (by simp [hxy]))) hx
      · exact absurd ((pfxB_iff p a).mpr ⟨c', hc1⟩) (by simp [hpa])

theorem pfxB_append_eq_of_last {p a b : Str} {d : Char} (hd : d ∉ p) :
    pfxB p ((a ++ [d]) ++ b) = pfxB p (a ++ [d]) := by
  cases hpa : pfxB p (a ++ [d]) with
  | true =>
    obtain ⟨r, hr⟩ := (pfxB_iff _ _).mp hpa
    exact (pfxB_iff _ _).mpr ⟨r ++ b, by simp [hr]⟩
  | false =>
    cases hpe : pfxB p ((a ++ [d]) ++ b) with
    | false => rfl
    | true =>
      obtain ⟨r, hr⟩ := (pfxB_iff _ _).mp hpe
      rcases List.append_eq_append_iff.mp hr with ⟨a', ha1, ha2⟩ | ⟨c', hc1, hc2⟩
      · exact absurd (ha1 ▸ List.mem_append.mpr (Or.inl (by simp))) hd
      · exact absurd ((pfxB_iff _ _).mpr ⟨c', hc1⟩) (by simp [hpa])

theorem occAll_cons (p : Str) (c : Char) (cs : Str) :
    occAll p (c :: cs) = (if pfxB p (c :: cs) then 1 else 0) + occAll p cs := rfl

theorem occAll_append_cons {p a b : Str} {x : Char} (hx : x ∉ p) :
    occAll p (a ++ x :: b) = occAll p a + occAll p (x :: b) := by
  induction a with
  | nil => simp [occAll]
  | cons c a' ih =>
    rw [show (c :: a') ++ x :: b = c :: (a' ++ x :: b) from rfl, occAll_cons,
      occAll_cons p c a',
      show c :: (a' ++ x :: b) = (c :: a') ++ x :: b from rfl,
      pfxB_append_cons_eq hx, ih]
    omega

theorem occAll_append_last {p a b : Str} {d : Char} (hd : d ∉ p) :
    occAll p ((a ++ [d]) ++ b) = occAll p (a ++ [d]) + occAll p b := by
  induction a with
  | nil =>
    rw [List.nil_append, List.singleton_append, occAll_cons,
      show d :: b = ([] ++ [d]) ++ b from rfl, pfxB_append_eq_of_last hd]
    simp [occAll]
  | cons c a' ih =>
    rw [show ((c :: a') ++ [d]) ++ b = c :: ((a' ++ [d]) ++ b) from rfl, occAll_cons,
      show (c :: a') ++ [d] = c :: (a' ++ [d]) from rfl, occAll_cons p c (a' ++ [d]),
      show c :: ((a' ++ [d]) ++ b) = ((c :: a') ++ [d]) ++ b from rfl,
      pfxB_append_eq_of_last hd,
      show (c :: a') ++ [d] = c :: (a' ++ [d]) from rfl, ih]
    omega

theorem occAll_all_nonhead {p : Str} {q : Char} {p' sp : Str} (hp : p = q :: p')
    (hsp : ∀ x ∈ sp, x ≠ q) : occAll p sp = 0 := by
  induction sp with
  | nil => rfl
  | cons s sp' ih =>
    rw [occAll_cons]
    have hq : pfxB p (s :: sp') = false := by
      rw [hp]
      simp only [pfxB, Bool.and_eq_false_iff, decide_eq_false_iff_not]
      exact Or.inl fun h => (hsp s (by simp)) h.symm
    rw [hq, ih (fun x hx => hsp x (by simp [hx]))]
    simp

theorem occAll_spaces_left {p : Str} {q : Char} {p' sp b : Str} (hp : p = q :: p')
    (hq : isSpaceC q = false) (hsp : ∀ x ∈ sp, isSpaceC x = true) :
    occAll p (sp ++ b) = occAll p b := by
  induction sp with
  | nil => rfl
  | cons s sp' ih =>
    rw [show (s :: sp') ++ b = s :: (sp' ++ b) from rfl, occAll_cons]
    have hpf : pfxB p (s :: (sp' ++ b)) = false := by
      rw [hp]
      simp only [pfxB, Bool.and_eq_false_iff, decide_eq_false_iff_not]
      refine Or.inl fun h => ?_
      rw [h] at hq
      have h2 := hsp s (by simp)
      rw [hq] at h2
      exact absurd h2 (by decide)
    rw [hpf, ih (fun x hx => hsp x (by simp [hx]))]
    simp

theorem occAll_spaces_right {p b sp : Str} (hpne : p ≠ [])
    (hps : ∀ x ∈ p, isSpaceC x = false) (hsp : ∀ x ∈ sp, isSpaceC x = true) :
    occAll p (b ++ sp) = occAll p b := by
  cases sp with
  | nil => simp
  | cons s sp' =>
    have hx : s ∉ p := by
      intro hmem
      have h1 := hps s hmem
      have h2 := hsp s (by simp)
      rw [h1] at h2
      exact absurd h2 (by decide)
    rw [occAll_append_cons hx]
    obtain ⟨q, p', hp⟩ : ∃ q p', p = q :: p' := by
      cases p with
      | nil => exact absurd rfl hpne
      | cons q p' => exact ⟨q, p', rfl⟩
    have h0 : occAll p (s :: sp') = 0 := by
      refine occAll_all_nonhead hp (fun x hxx hxq => ?_)
      have h1 := hps x (by simp [hp, hxq])
      have h2 := hsp x hxx
      rw [h1] at h2
      exact absurd h2 (by decide)
    rw [h0]
    omega

theorem occAll_stripW {p : Str} (hpne : p ≠ [])
    (hps : ∀ x ∈ p, isSpaceC x = false) (s : Str) :
    occAll p (stripW s) = occAll p s := by
  obtain ⟨q, p', hp⟩ : ∃ q p', p = q :: p' := by
    cases p with
    | nil => exact absurd rfl hpne
    | cons q p' => exact ⟨q, p', rfl⟩
  have hq : isSpaceC q = false := hps q (by simp [hp])
  have e1 : occAll p s = occAll p (s.dropWhile isSpaceC) := by
    conv_lhs => rw [← List.takeWhile_append_dropWhile (p := isSpaceC) (l := s)]
    exact occAll_spaces_left hp hq (fun x hx => List.mem_takeWhile_imp hx)
  have e2 : occAll p (s.dropWhile isSpaceC) =
      occAll p (((s.dropWhile isSpaceC).reverse.dropWhile isSpaceC).reverse) := by
    set t := s.dropWhile isSpaceC with ht
    have h3 : t = (t.reverse.dropWhile isSpaceC).reverse ++
        (t.reverse.takeWhile isSpaceC).reverse := by
      conv_lhs => rw [← List.reverse_reverse t,
        ← List.takeWhile_append_dropWhile (p := isSpaceC) (l := t.reverse),
        List.reverse_append]
    conv_lhs => rw [h3]
    exact occAll_spaces_right hpne hps
      (fun x hx => List.mem_takeWhile_imp (List.mem_reverse.mp hx))
  rw [stripW, ← e2, ← e1]

theorem splitRec_occ {p : Str} (hpne : p ≠ [])
    (hpdelim : ∀ x ∈ p, delimC x = false) (hpspace : ∀ x ∈ p, isSpaceC x = false) :
    ∀ s skip acc, (skip = true → acc = []) →
      occAll p (acc.reverse ++ s) = ((splitRec skip acc s).map (occAll p)).sum := by
  intro s
  induction s with
  | nil =>
    intro skip acc _
    simp [splitRec, occAll]
  | cons c cs ih =>
    intro skip acc hinv
    by_cases h1 : (skip && isSpaceC c) = true
    · obtain ⟨hsk, hsc⟩ := Bool.and_eq_true_iff.mp h1
      have hacc : acc = [] := hinv hsk
      subst hacc
      rw [show splitRec skip [] (c :: cs) = splitRec true [] cs by
        rw [splitRec, if_pos h1]]
      have hlhs : occAll p (List.reverse [] ++ c :: cs) = occAll p (List.reverse [] ++ cs) := by
        simp only [List.reverse_nil, List.nil_append]
        rw [show c :: cs = [c] ++ cs from rfl]
        obtain ⟨q, p', hp⟩ : ∃ q p', p = q :: p' := by
          cases p with
          | nil => exact absurd rfl hpne
          | cons q p' => exact ⟨q, p', rfl⟩
        exact occAll_spaces_left hp (hpspace q (by simp [hp]))
          (fun x hx => by
            rw [List.mem_singleton.mp hx]
            exact hsc)
      rw [hlhs]
      exact ih true [] (fun _ => rfl)
    · by_cases h2 : delimC c = true
      · rw [show splitRec skip acc (c :: cs) =
            (acc.reverse ++ [c]) :: splitRec true [] cs by
          rw [splitRec, if_neg (by simp [h1]), if_pos h2]]
        have hcp : c ∉ p := by
          intro hmem
          have := hpdelim c hmem
          rw [h2] at this
          exact absurd this (by decide)
        rw [show acc.reverse ++ c :: cs = (acc.reverse ++ [c]) ++ cs by simp]
        rw [occAll_append_last hcp]
        rw [List.map_cons, List.sum_cons]
        have := ih true [] (fun _ => rfl)
        simp only [List.reverse_nil, List.nil_append] at this
        rw [this]
      · rw [show splitRec skip acc (c :: cs) = splitRec false (c :: acc) cs by
          rw [splitRec, if_neg (by simp [h1]), if_neg (by simp [h2])]]
        have := ih false (c :: acc) (fun h => absurd h (by simp))
        rw [List.reverse_cons] at this
        rw [show acc.reverse ++ c :: cs = (acc.reverse ++ [c]) ++ cs by simp]
        exact this

theorem sum_occ_filter (p : Str) (l : List Str) :
    ((l.filter (fun s => !s.isEmpty)).map (occAll p)).sum = (l.map (occAll p)).sum := by
  induction l with
  | nil => rfl
  | cons s l' ih =>
    by_cases hs : s.isEmpty = true
    · have hnil : s = [] := List.isEmpty_iff.mp hs
      subst hnil
      simpa [List.filter_cons, occAll] using ih
    · simp [List.filter_cons, hs, ih]

/-- C6: placeholder conservation and no-split: for every text and every
placeholder-shaped token (no brackets, sentence delimiters or whitespace in
its body — the shape of every Masker-generated placeholder), the number of
occurrences of the token in the text equals the sum of its occurrences over
the segments produced by `local_splitting_logic` — no occurrence is dropped,
duplicated, or split across a segment boundary. -/
theorem placeholder_conservation (t p : Str) (hp : PhTok p) :
    occAll p t = ((local_splitting_logic t).map (occAll p)).sum := by
  obtain ⟨mid, rfl, hmne, hmid⟩ := hp
  have hmem : ∀ x ∈ phWrap mid, x = '[' ∨ x = ']' ∨ x ∈ mid := by
    intro x hx
    simp only [phWrap, List.mem_cons, List.mem_append] at hx
    rcases hx with rfl | rfl | hx | hx
    · exact Or.inl rfl
    · exact Or.inl rfl
    · exact Or.inr (Or.inr hx)
    · rcases hx with rfl | rfl | hx
      · exact Or.inr (Or.inl rfl)
      · exact Or.inr (Or.inl rfl)
      · exact absurd hx (by simp)
  have hpne : phWrap mid ≠ [] := by simp [phWrap]
  have hdelim : ∀ x ∈ phWrap mid, delimC x = false := by
    intro x hx
    rcases hmem x hx with rfl | rfl | hx
    · decide
    · decide
    · exact (hmid x hx).2.2.1
  have hspace : ∀ x ∈ phWrap mid, isSpaceC x = false := by
    intro x hx
    rcases hmem x hx with rfl | rfl | hx
    · decide
    · decide
    · exact (hmid x hx).2.2.2
  have h1 := splitRec_occ hpne hdelim hspace t false [] (fun h => rfl)
  simp only [List.reverse_nil, List.nil_append] at h1
  rw [local_splitting_logic, sum_occ_filter, List.map_map]
  rw [show ((splitRec false [] t).map ((occAll (phWrap mid)) ∘ stripW)).sum =
      ((splitRec false [] t).map (occAll (phWrap mid))).sum from
    congrArg List.sum (List.map_congr_left
      (fun piece _ => occAll_stripW hpne hspace piece))]
  exact h1

/-- C6 witness: conservation at a concrete segmentation with one placeholder
occurrence per sentence. -/
theorem placeholder_conservation_witness :
    PhTok (sl "[[EMAIL_0000]]") ∧
    occAll (sl "[[EMAIL_0000]]") (sl "Visit [[EMAIL_0000]] now. Mail [[EMAIL_0000]]!") =
      ((local_splitting_logic (sl "Visit [[EMAIL_0000]] now. Mail [[EMAIL_0000]]!")).map
        (occAll (sl "[[EMAIL_0000]]"))).sum :=
  ⟨⟨sl "EMAIL_0000", by decide, by decide, by decide⟩,
   placeholder_conservation _ _ ⟨sl "EMAIL_0000", by decide, by decide, by decide⟩⟩

/-! ## Round trip: scanning infrastructure -/

theorem scanPassF_stable (m : Option Char → Str → Option Nat) (mk : Nat → Str) :
    ∀ fuel1 fuel2 (prev : Option Char) (s : Str) (ctr : Nat),
      s.length ≤ fuel1 → s.length ≤ fuel2 →
      scanPassF m mk fuel1 prev s ctr = scanPassF m mk fuel2 prev s ctr := by
  intro fuel1
  induction fuel1 with
  | zero =>
    intro fuel2 prev s ctr h1 _
    have : s = [] := List.length_eq_zero.mp (Nat.le_zero.mp h1)
    subst this
    cases fuel2 <;> rfl
  | succ fuel1 ih =>
    intro fuel2 prev s ctr h1 h2
    cases s with
    | nil => cases fuel2 <;> rfl
    | cons c cs =>
      cases fuel2 with
      | zero => exact absurd h2 (by simp)
      | succ fuel2 =>
        simp only [scanPassF]
        cases hm : m prev (c :: cs) with
        | some n =>
          simp only
          rw [ih fuel2 _ _ _
            (by
              have := List.length_drop (max n 1 - 1) cs
              simp only [List.length_cons] at h1
              omega)
            (by
              have := List.length_drop (max n 1 - 1) cs
              simp only [List.length_cons] at h2
              omega)]
        | none =>
          simp only
          rw [ih fuel2 _ _ _
            (by simp only [List.length_cons] at h1; omega)
            (by simp only [List.length_cons] at h2; omega)]

theorem replaceAllF_stable (p o : Str) :
    ∀ fuel1 fuel2 (s : Str), s.length ≤ fuel1 → s.length ≤ fuel2 →
      replaceAllF p o fuel1 s = replaceAllF p o fuel2 s := by
  intro fuel1
  induction fuel1 with
  | zero =>
    intro fuel2 s h1 _
    have : s = [] := List.length_eq_zero.mp (Nat.le_zero.mp h1)
    subst this
    cases fuel2 <;> rfl
  | succ fuel1 ih =>
    intro fuel2 s h1 h2
    cases s with
    | nil => cases fuel2 <;> rfl
    | cons c cs =>
      cases fuel2 with
      | zero => exact absurd h2 (by simp)
      | succ fuel2 =>
        simp only [replaceAllF]
        split
        · rw [ih fuel2 _
            (by
              have := List.length_drop (p.length - 1) cs
              simp only [List.length_cons] at h1
              omega)
            (by
              have := List.length_drop (p.length - 1) cs
              simp only [List.length_cons] at h2
              omega)]
        · rw [ih fuel2 _
            (by simp only [List.length_cons] at h1; omega)
            (by simp only [List.length_cons] at h2; omega)]

theorem runLen_le_length (p : Char → Bool) : ∀ s : Str, runLen p s ≤ s.length := by
  intro s
  induction s with
  | nil => simp [runLen]
  | cons c cs ih =>
    simp only [runLen, List.length_cons]
    split <;> omega

theorem emailLen_bound {s : Str} {n : Nat} (h : emailLen s = some n) :
    1 ≤ n ∧ n ≤ s.length := by
  simp only [emailLen] at h
  split at h
  · exact absurd h (by simp)
  · rename_i hr1
    split at h
    · rename_i s2 heq
      split at h
      · exact absurd h (by simp)
      · rename_i hr2
        split at h
        · rename_i s3 heq2
          split at h
          · exact absurd h (by simp)
          · rename_i hr3
            injection h with h
            subst h
            have l1 := runLen_le_length isLocalC s
            have l2 := runLen_le_length isDomainC s2
            have l3 := runLen_le_length isDomTailC s3
            have e1 : s.length - runLen isLocalC s = s2.length + 1 := by
              have := congrArg List.length heq
              simpa [List.length_drop] using this
            have e2 : s2.length - runLen isDomainC s2 = s3.length + 1 := by
              have := congrArg List.length heq2
              simpa [List.length_drop] using this
            omega
        · exact absurd h (by simp)
    · exact absurd h (by simp)

theorem ipGroup_bound {s s' : Str} {r : Nat} (h : ipGroup s = some (r, s')) :
    1 ≤ r ∧ r ≤ 3 ∧ s' = s.drop r ∧ s'.length = s.length - r ∧ r ≤ s.length := by
  simp only [ipGroup] at h
  split at h
  · rename_i hr
    injection h with h
    injection h with h1 h2
    subst h1
    have hrl : runLen Char.isDigit s ≤ s.length := runLen_le_length _ s
    refine ⟨hr.1, hr.2, h2.symm, ?_, hrl⟩
    rw [← h2]
    exact List.length_drop _ _
  · exact absurd h (by simp)

theorem ipM_bound {prev : Option Char} {s : Str} {n : Nat} (h : ipM prev s = some n) :
    1 ≤ n ∧ n ≤ s.length := by
  unfold ipM at h
  split at h
  · exact absurd h (by simp)
  · split at h
    · exact absurd h (by simp)
    · rename_i r1 s1 hg1
      obtain ⟨b11, b12, rfl, hb1, hc1⟩ := ipGroup_bound hg1
      split at h
      · rename_i s1' heq1
        split at h
        · exact absurd h (by simp)
        · rename_i r2 s2 hg2
          obtain ⟨b21, b22, rfl, hb2, hc2⟩ := ipGroup_bound hg2
          split at h
          · rename_i s2' heq2
            split at h
            · exact absurd h (by simp)
            · rename_i r3 s3 hg3
              obtain ⟨b31, b32, rfl, hb3, hc3⟩ := ipGroup_bound hg3
              split at h
              · rename_i s3' heq3
                split at h
                · exact absurd h (by simp)
                · rename_i r4 s4 hg4
                  obtain ⟨b41, b42, rfl, hb4, hc4⟩ := ipGroup_bound hg4
                  have hl1 := congrArg List.length heq1
                  have hl2 := congrArg List.length heq2
                  have hl3 := congrArg List.length heq3
                  simp only [List.length_cons] at hl1 hl2 hl3
                  split at h
                  · injection h with h
                    omega
                  · split at h
                    · exact absurd h (by simp)
                    · injection h with h
                      omega
              · exact absurd h (by simp)
          · exact absurd h (by simp)
      · exact absurd h (by simp)

theorem urlLen_bound {s : Str} {n : Nat} (h : urlLen s = some n) :
    1 ≤ n ∧ n ≤ s.length := by
  unfold urlLen at h
  split at h
  · split at h
    · rename_i r
      dsimp only at h
      split at h
      · exact absurd h (by simp)
      · injection h with h
        have := runLen_le_length (fun c => !isSpaceC c) r
        simp only [List.length_cons]
        omega
    · rename_i r
      dsimp only at h
      split at h
      · exact absurd h (by simp)
      · injection h with h
        have := runLen_le_length (fun c => !isSpaceC c) r
        simp only [List.length_cons]
        omega
    · exact absurd h (by simp)
  · exact absurd h (by simp)


/-! ## Round trip: boundary agreement of the matchers at a bracket -/

/-- A run of `p`-characters stops at a character violating `p`. -/
theorem runLen_append_break {p : Char → Bool} {x : Char} (hx : p x = false) :
    ∀ (a b : Str), runLen p (a ++ x :: b) = runLen p a := by
  intro a b
  induction a with
  | nil => simp [runLen, hx]
  | cons c cs ih => simp only [List.cons_append, runLen, List.append_eq, ih]

/-- A run over an all-`p` prefix continues into the suffix. -/
theorem runLen_append_all {p : Char → Bool} :
    ∀ {xs : Str} (ys : Str), (∀ c ∈ xs, p c = true) →
      runLen p (xs ++ ys) = xs.length + runLen p ys := by
  intro xs
  induction xs with
  | nil => intro ys _; simp
  | cons c cs ih =>
    intro ys h
    have hc : p c = true := h c (by simp)
    simp only [List.cons_append, runLen, hc, if_pos, List.append_eq]
    rw [ih ys (fun d hd => h d (by simp [hd]))]
    simp [List.length_cons]; omega

/-- The EMAIL matcher does not see past a `[` (no pattern character class
contains `[`), so it agrees on `σ` and on `σ ++ [ ... `. -/
theorem emailM_break (prev : Option Char) (σ r : Str) :
    emailM prev (σ ++ '[' :: r) = emailM prev σ := by
  show emailLen (σ ++ '[' :: r) = emailLen σ
  simp only [emailLen]
  rw [runLen_append_break (by decide : isLocalC '[' = false)]
  by_cases h1 : runLen isLocalC σ = 0
  · simp [h1]
  · rw [if_neg h1, if_neg h1,
      List.drop_append_of_le_length (runLen_le_length isLocalC σ)]
    cases hd : σ.drop (runLen isLocalC σ) with
    | nil => rfl
    | cons d t2 =>
      rw [List.cons_append]
      by_cases hdat : d = '@'
      · subst hdat
        show (if runLen isDomainC (t2 ++ '[' :: r) = 0 then none
              else match (t2 ++ '[' :: r).drop (runLen isDomainC (t2 ++ '[' :: r)) with
                   | '.' :: s3 =>
                     if runLen isDomTailC s3 = 0 then none
                     else some (runLen isLocalC σ + 1 + runLen isDomainC (t2 ++ '[' :: r) + 1 +
                       runLen isDomTailC s3)
                   | _ => none) =
             (if runLen isDomainC t2 = 0 then none
              else match t2.drop (runLen isDomainC t2) with
                   | '.' :: s3 =>
                     if runLen isDomTailC s3 = 0 then none
                     else some (runLen isLocalC σ + 1 + runLen isDomainC t2 + 1 +
                       runLen isDomTailC s3)
                   | _ => none)
        rw [runLen_append_break (by decide : isDomainC '[' = false)]
        by_cases h2 : runLen isDomainC t2 = 0
        · simp [h2]
        · rw [if_neg h2, if_neg h2,
            List.drop_append_of_le_length (runLen_le_length isDomainC t2)]
          cases hd2 : t2.drop (runLen isDomainC t2) with
          | nil => rfl
          | cons e t3 =>
            rw [List.cons_append]
            by_cases hedot : e = '.'
            · subst hedot
              show (if runLen isDomTailC (t3 ++ '[' :: r) = 0 then none
                    else some (runLen isLocalC σ + 1 + runLen isDomainC t2 + 1 +
                      runLen isDomTailC (t3 ++ '[' :: r))) =
                   (if runLen isDomTailC t3 = 0 then none
                    else some (runLen isLocalC σ + 1 + runLen isDomainC t2 + 1 +
                      runLen isDomTailC t3))
              rw [runLen_append_break (by decide : isDomTailC '[' = false)]
            · split
              · rename_i s3 heq
                rw [List.cons.injEq] at heq
                exact absurd heq.1 hedot
              · split
                · rename_i s3 heq
                  rw [List.cons.injEq] at heq
                  exact absurd heq.1 hedot
                · rfl
      · split
        · rename_i s2 heq
          rw [List.cons.injEq] at heq
          exact absurd heq.1 hdat
        · split
          · rename_i s2 heq
            rw [List.cons.injEq] at heq
            exact absurd heq.1 hdat
          · rfl

/-- A digit group does not see past a `[`. -/
theorem ipGroup_break (σ r : Str) :
    ipGroup (σ ++ '[' :: r) =
      (ipGroup σ).map (fun pr => (pr.1, pr.2 ++ '[' :: r)) := by
  simp only [ipGroup]
  rw [runLen_append_break (by decide : Char.isDigit '[' = false)]
  by_cases hc : 1 ≤ runLen Char.isDigit σ ∧ runLen Char.isDigit σ ≤ 3
  · rw [if_pos hc, if_pos hc,
      List.drop_append_of_le_length (runLen_le_length Char.isDigit σ)]
    rfl
  · rw [if_neg hc, if_neg hc]
    rfl

/-- The IP matcher does not see past a `[`. -/
theorem ipM_break (prev : Option Char) (σ r : Str) :
    ipM prev (σ ++ '[' :: r) = ipM prev σ := by
  simp only [ipM]
  split
  · rfl
  · rw [ipGroup_break σ r]
    cases hg1 : ipGroup σ with
    | none => rfl
    | some pr1 =>
      obtain ⟨r1, s1⟩ := pr1
      rw [Option.map_some']
      cases s1 with
      | nil => rfl
      | cons d1 s1' =>
        by_cases hd1 : d1 = '.'
        · subst hd1
          show (match ipGroup (s1' ++ '[' :: r) with
                | none => none
                | some (r2, s2) =>
                  match s2 with
                  | '.' :: s2' =>
                    match ipGroup s2' with
                    | none => none
                    | some (r3, s3) =>
                      match s3 with
                      | '.' :: s3' =>
                        match ipGroup s3' with
                        | none => none
                        | some (r4, s4) =>
                          match s4 with
                          | [] => some (r1 + 1 + r2 + 1 + r3 + 1 + r4)
                          | c :: _ =>
                            if isWordC c then none
                            else some (r1 + 1 + r2 + 1 + r3 + 1 + r4)
                      | _ => none
                  | _ => none) =
               (match ipGroup s1' with
                | none => none
                | some (r2, s2) =>
                  match s2 with
                  | '.' :: s2' =>
                    match ipGroup s2' with
                    | none => none
                    | some (r3, s3) =>
                      match s3 with
                      | '.' :: s3' =>
                        match ipGroup s3' with
                        | none => none
                        | some (r4, s4) =>
                          match s4 with
                          | [] => some (r1 + 1 + r2 + 1 + r3 + 1 + r4)
                          | c :: _ =>
                            if isWordC c then none
                            else some (r1 + 1 + r2 + 1 + r3 + 1 + r4)
                      | _ => none
                  | _ => none)
          rw [ipGroup_break s1' r]
          cases hg2 : ipGroup s1' with
          | none => rfl
          | some pr2 =>
            obtain ⟨r2, s2⟩ := pr2
            rw [Option.map_some']
            cases s2 with
            | nil => rfl
            | cons d2 s2' =>
              by_cases hd2 : d2 = '.'
              · subst hd2
                show (match ipGroup (s2' ++ '[' :: r) with
                      | none => none
                      | some (r3, s3) =>
                        match s3 with
                        | '.' :: s3' =>
                          match ipGroup s3' with
                          | none => none
                          | some (r4, s4) =>
                            match s4 with
                            | [] => some (r1 + 1 + r2 + 1 + r3 + 1 + r4)
                            | c :: _ =>
                              if isWordC c then none
                              else some (r1 + 1 + r2 + 1 + r3 + 1 + r4)
                        | _ => none) =
                     (match ipGroup s2' with
                      | none => none
                      | some (r3, s3) =>
                        match s3 with
                        | '.' :: s3' =>
                          match ipGroup s3' with
                          | none => none
                          | some (r4, s4) =>
                            match s4 with
                            | [] => some (r1 + 1 + r2 + 1 + r3 + 1 + r4)
                            | c :: _ =>
                              if isWordC c then none
                              else some (r1 + 1 + r2 + 1 + r3 + 1 + r4)
                        | _ => none)
                rw [ipGroup_break s2' r]
                cases hg3 : ipGroup s2' with
                | none => rfl
                | some pr3 =>
                  obtain ⟨r3, s3⟩ := pr3
                  rw [Option.map_some']
                  cases s3 with
                  | nil => rfl
                  | cons d3 s3' =>
                    by_cases hd3 : d3 = '.'
                    · subst hd3
                      show (match ipGroup (s3' ++ '[' :: r) with
                            | none => none
                            | some (r4, s4) =>
                              match s4 with
                              | [] => some (r1 + 1 + r2 + 1 + r3 + 1 + r4)
                              | c :: _ =>
                                if isWordC c then none
                                else some (r1 + 1 + r2 + 1 + r3 + 1 + r4)) =
                           (match ipGroup s3' with
                            | none => none
                            | some (r4, s4) =>
                              match s4 with
                              | [] => some (r1 + 1 + r2 + 1 + r3 + 1 + r4)
                              | c :: _ =>
                                if isWordC c then none
                                else some (r1 + 1 + r2 + 1 + r3 + 1 + r4))
                      rw [ipGroup_break s3' r]
                      cases hg4 : ipGroup s3' with
                      | none => rfl
                      | some pr4 =>
                        obtain ⟨r4, s4⟩ := pr4
                        rw [Option.map_some']
                        cases s4 with
                        | nil => rfl
                        | cons c4 s5 => rfl
                    · dsimp only
                      rw [List.cons_append]
                      split
                      · rename_i a heq
                        rw [List.cons.injEq] at heq
                        exact absurd heq.1 hd3
                      · split
                        · rename_i a heq
                          rw [List.cons.injEq] at heq
                          exact absurd heq.1 hd3
                        · rfl
              · dsimp only
                rw [List.cons_append]
                split
                · rename_i a heq
                  rw [List.cons.injEq] at heq
                  exact absurd heq.1 hd2
                · split
                  · rename_i a heq
                    rw [List.cons.injEq] at heq
                    exact absurd heq.1 hd2
                  · rfl
        · dsimp only
          rw [List.cons_append]
          split
          · rename_i a heq
            rw [List.cons.injEq] at heq
            exact absurd heq.1 hd1
          · split
            · rename_i a heq
              rw [List.cons.injEq] at heq
              exact absurd heq.1 hd1
            · rfl
/-- Prefix characterisation of the URL matcher. -/
theorem urlLen_pfx (s : Str) :
    urlLen s =
      (if pfxB ['h', 't', 't', 'p', 's', ':', '/', '/'] s then
        (if runLen (fun c => !isSpaceC c) (s.drop 8) = 0 then none
         else some (8 + runLen (fun c => !isSpaceC c) (s.drop 8)))
       else if pfxB ['h', 't', 't', 'p', ':', '/', '/'] s then
        (if runLen (fun c => !isSpaceC c) (s.drop 7) = 0 then none
         else some (7 + runLen (fun c => !isSpaceC c) (s.drop 7)))
       else none) := by
  unfold urlLen
  split
  · rename_i rest
    split
    · rename_i r0
      rw [if_pos (show pfxB ['h', 't', 't', 'p', 's', ':', '/', '/']
        ('h' :: 't' :: 't' :: 'p' :: 's' :: ':' :: '/' :: '/' :: r0) = true from rfl)]
      rw [show (('h' :: 't' :: 't' :: 'p' :: 's' :: ':' :: '/' :: '/' :: r0 : Str)).drop 8
        = r0 from rfl]
    · rename_i r0
      rw [if_neg (show ¬(pfxB ['h', 't', 't', 'p', 's', ':', '/', '/']
        ('h' :: 't' :: 't' :: 'p' :: ':' :: '/' :: '/' :: r0) = true) from by simp [pfxB])]
      rw [if_pos (show pfxB ['h', 't', 't', 'p', ':', '/', '/']
        ('h' :: 't' :: 't' :: 'p' :: ':' :: '/' :: '/' :: r0) = true from rfl)]
      rw [show (('h' :: 't' :: 't' :: 'p' :: ':' :: '/' :: '/' :: r0 : Str)).drop 7
        = r0 from rfl]
    · rename_i hs hc
      have h8 : ¬(pfxB ['h', 't', 't', 'p', 's', ':', '/', '/']
          ('h' :: 't' :: 't' :: 'p' :: rest) = true) := by
        intro hp
        obtain ⟨t, ht⟩ := (pfxB_iff _ _).mp hp
        simp only [List.cons_append, List.nil_append, List.cons.injEq, true_and] at ht
        exact hs t ht
      have h7 : ¬(pfxB ['h', 't', 't', 'p', ':', '/', '/']
          ('h' :: 't' :: 't' :: 'p' :: rest) = true) := by
        intro hp
        obtain ⟨t, ht⟩ := (pfxB_iff _ _).mp hp
        simp only [List.cons_append, List.nil_append, List.cons.injEq, true_and] at ht
        exact hc t ht
      rw [if_neg h8, if_neg h7]
  · rename_i hout
    have h8 : ¬(pfxB ['h', 't', 't', 'p', 's', ':', '/', '/'] s = true) := by
      intro hp
      obtain ⟨t, ht⟩ := (pfxB_iff _ _).mp hp
      exact hout ('s' :: ':' :: '/' :: '/' :: t) (by simpa using ht)
    have h7 : ¬(pfxB ['h', 't', 't', 'p', ':', '/', '/'] s = true) := by
      intro hp
      obtain ⟨t, ht⟩ := (pfxB_iff _ _).mp hp
      exact hout (':' :: '/' :: '/' :: t) (by simpa using ht)
    rw [if_neg h8, if_neg h7]

/-- If some character of `t` violates `p`, the run over `t ++ ys` stays in `t`. -/
theorem runLen_append_stop {p : Char → Bool} :
    ∀ (t ys : Str), (∃ c ∈ t, p c = false) → runLen p (t ++ ys) = runLen p t := by
  intro t
  induction t with
  | nil => intro ys h; simp at h
  | cons c cs ih =>
    intro ys h
    show (if p c = true then runLen p (cs ++ ys) + 1 else 0) =
      (if p c = true then runLen p cs + 1 else 0)
    by_cases hc : p c = true
    · rw [if_pos hc, if_pos hc]
      obtain ⟨c0, hc0m, hc0⟩ := h
      rcases List.mem_cons.mp hc0m with rfl | hm
      · rw [hc] at hc0; cases hc0
      · rw [ih ys ⟨c0, hm, hc0⟩]
    · rw [if_neg hc, if_neg hc]

/-- The URL matcher on `σ ++ [ ...` either agrees with the matcher on `σ`, or
its nonspace run crosses the `[`, in which case the match is longer than
`σ`. -/
theorem urlM_break (prev : Option Char) (σ r : Str) :
    urlM prev (σ ++ '[' :: r) = urlM prev σ ∨
      ∃ n, urlM prev (σ ++ '[' :: r) = some n ∧ σ.length < n := by
  show urlLen (σ ++ '[' :: r) = urlLen σ ∨
      ∃ n, urlLen (σ ++ '[' :: r) = some n ∧ σ.length < n
  rw [urlLen_pfx (σ ++ '[' :: r), urlLen_pfx σ,
    pfxB_append_cons_eq (by decide : '[' ∉ (['h', 't', 't', 'p', 's', ':', '/', '/'] : Str)),
    pfxB_append_cons_eq (by decide : '[' ∉ (['h', 't', 't', 'p', ':', '/', '/'] : Str))]
  have hpos : runLen (fun c => !isSpaceC c) ('[' :: r) =
      runLen (fun c => !isSpaceC c) r + 1 := by
    simp [runLen, isSpaceC]
  by_cases h8 : pfxB ['h', 't', 't', 'p', 's', ':', '/', '/'] σ = true
  · rw [if_pos h8, if_pos h8]
    obtain ⟨t, rfl⟩ := (pfxB_iff _ _).mp h8
    have hdf : ((['h', 't', 't', 'p', 's', ':', '/', '/'] ++ t : Str) ++ '[' :: r).drop 8 =
        t ++ '[' :: r := by
      rw [List.append_assoc]
      rfl
    have hda : ((['h', 't', 't', 'p', 's', ':', '/', '/'] ++ t : Str)).drop 8 = t := rfl
    rw [hdf, hda]
    by_cases hall : ∀ c ∈ t, isSpaceC c = false
    · right
      have hrun : runLen (fun c => !isSpaceC c) (t ++ '[' :: r) =
          t.length + runLen (fun c => !isSpaceC c) ('[' :: r) :=
        runLen_append_all _ (fun c hc => by simp [hall c hc])
      have h0 : ¬(runLen (fun c => !isSpaceC c) (t ++ '[' :: r) = 0) := by
        rw [hrun, hpos]; omega
      refine ⟨8 + runLen (fun c => !isSpaceC c) (t ++ '[' :: r), ?_, ?_⟩
      · rw [if_neg h0]
      · rw [hrun, hpos]; simp [List.length_append]; omega
    · left
      push_neg at hall
      obtain ⟨c0, hc0m, hc0⟩ := hall
      have hrun : runLen (fun c => !isSpaceC c) (t ++ '[' :: r) =
          runLen (fun c => !isSpaceC c) t :=
        runLen_append_stop t _ ⟨c0, hc0m, by
          simp only [Bool.not_eq_false] at hc0
          simp [hc0]⟩
      rw [hrun]
  · rw [if_neg h8, if_neg h8]
    by_cases h7 : pfxB ['h', 't', 't', 'p', ':', '/', '/'] σ = true
    · rw [if_pos h7, if_pos h7]
      obtain ⟨t, rfl⟩ := (pfxB_iff _ _).mp h7
      have hdf : ((['h', 't', 't', 'p', ':', '/', '/'] ++ t : Str) ++ '[' :: r).drop 7 =
          t ++ '[' :: r := by
        rw [List.append_assoc]
        rfl
      have hda : ((['h', 't', 't', 'p', ':', '/', '/'] ++ t : Str)).drop 7 = t := rfl
      rw [hdf, hda]
      by_cases hall : ∀ c ∈ t, isSpaceC c = false
      · right
        have hrun : runLen (fun c => !isSpaceC c) (t ++ '[' :: r) =
            t.length + runLen (fun c => !isSpaceC c) ('[' :: r) :=
          runLen_append_all _ (fun c hc => by simp [hall c hc])
        have h0 : ¬(runLen (fun c => !isSpaceC c) (t ++ '[' :: r) = 0) := by
          rw [hrun, hpos]; omega
        refine ⟨7 + runLen (fun c => !isSpaceC c) (t ++ '[' :: r), ?_, ?_⟩
        · rw [if_neg h0]
        · rw [hrun, hpos]; simp [List.length_append]; omega
      · left
        push_neg at hall
        obtain ⟨c0, hc0m, hc0⟩ := hall
        have hrun : runLen (fun c => !isSpaceC c) (t ++ '[' :: r) =
            runLen (fun c => !isSpaceC c) t :=
          runLen_append_stop t _ ⟨c0, hc0m, by
            simp only [Bool.not_eq_false] at hc0
            simp [hc0]⟩
        rw [hrun]
    · rw [if_neg h7, if_neg h7]
      left
      rfl


/-! ## Round trip: structural properties of the scanner -/

theorem renderM_append (xs ys : List MTok) :
    renderM (xs ++ ys) = renderM xs ++ renderM ys := by
  induction xs with
  | nil => rfl
  | cons t ts ih => cases t <;> simp [renderM, ih]

theorem entriesM_append (xs ys : List MTok) :
    entriesM (xs ++ ys) = entriesM xs ++ entriesM ys := by
  induction xs with
  | nil => rfl
  | cons t ts ih => cases t <;> simp [entriesM, ih]

theorem renderR_append (xs ys : List MTok) :
    renderR (xs ++ ys) = renderR xs ++ renderR ys := by
  induction xs with
  | nil => rfl
  | cons t ts ih => cases t <;> simp [renderR, ih]

theorem renderR_consRaw (c : Char) (ts : List MTok) :
    renderR (consRaw c ts) = c :: renderR ts := by
  cases ts with
  | nil => rfl
  | cons t ts' => cases t <;> rfl

/-- The original rendering of a scan is the scanned text: replacing each
placeholder back by the matched text it covers restores the input. -/
theorem scanPassF_renderR (m : Option Char → Str → Option Nat) (mk : Nat → Str) :
    ∀ (fuel : Nat) (s : Str) (prev : Option Char) (ctr : Nat), s.length ≤ fuel →
      renderR (scanPassF m mk fuel prev s ctr).1 = s := by
  intro fuel
  induction fuel with
  | zero =>
    intro s prev ctr h
    have : s = [] := List.length_eq_zero.mp (Nat.le_zero.mp h)
    subst this
    rfl
  | succ fuel ih =>
    intro s prev ctr h
    cases s with
    | nil => rfl
    | cons c cs =>
      simp only [scanPassF]
      cases hm : m prev (c :: cs) with
      | some n =>
        simp only [renderR]
        rw [ih _ _ _ (by
          have := List.length_drop (max n 1 - 1) cs
          simp only [List.length_cons] at h
          omega)]
        have htk : (c :: cs).take (max n 1) = c :: cs.take (max n 1 - 1) := by
          rw [show max n 1 = (max n 1 - 1) + 1 from by omega]
          rfl
        rw [htk, List.cons_append, List.take_append_drop]
      | none =>
        rw [renderR_consRaw, ih _ _ _ (by simp only [List.length_cons] at h; omega)]

/-- Every character of a raw piece of a scan output is a character of the
scanned text. -/
theorem scanPassF_raw_mem (m : Option Char → Str → Option Nat) (mk : Nat → Str) :
    ∀ (fuel : Nat) (s : Str) (prev : Option Char) (ctr : Nat) (s' : Str),
      MTok.raw s' ∈ (scanPassF m mk fuel prev s ctr).1 → ∀ x ∈ s', x ∈ s := by
  intro fuel
  induction fuel with
  | zero =>
    intro s prev ctr s' hmem
    simp [scanPassF] at hmem
  | succ fuel ih =>
    intro s prev ctr s' hmem
    cases s with
    | nil => simp [scanPassF] at hmem
    | cons c cs =>
      simp only [scanPassF] at hmem
      cases hm : m prev (c :: cs) with
      | some n =>
        rw [hm] at hmem
        simp only [List.mem_cons] at hmem
        rcases hmem with h1 | h1
        · cases h1
        · intro x hx
          have := ih _ _ _ _ h1 x hx
          have hsub : x ∈ cs := List.mem_of_mem_drop this
          simp [hsub]
      | none =>
        rw [hm] at hmem
        intro x hx
        rcases hr : (scanPassF m mk fuel (some c) cs ctr).1 with _ | ⟨t0, ts0⟩
        · rw [hr] at hmem
          simp only [consRaw, List.mem_singleton] at hmem
          cases hmem
          simp only [List.mem_singleton] at hx
          simp [hx]
        · rw [hr] at hmem
          cases t0 with
          | raw s0 =>
            simp only [consRaw, List.mem_cons] at hmem
            rcases hmem with h1 | h1
            · cases h1
              rcases List.mem_cons.mp hx with rfl | hx'
              · simp
              · have := ih _ _ _ _ (by rw [hr]; exact List.mem_cons_self _ _) x hx'
                simp [this]
            · have := ih _ _ _ _ (by rw [hr]; exact List.mem_cons_of_mem _ h1) x hx
              simp [this]
          | tag p o =>
            simp only [consRaw, List.mem_cons] at hmem
            rcases hmem with h1 | h1 | h1
            · cases h1
              simp only [List.mem_singleton] at hx
              simp [hx]
            · cases h1
            · have := ih _ _ _ _ (by rw [hr]; exact List.mem_cons_of_mem _ h1) x hx
              simp [this]

/-- Every tag of a scan output carries a generated key and an original made
of characters of the scanned text. -/
theorem scanPassF_tag_mem (m : Option Char → Str → Option Nat) (mk : Nat → Str) :
    ∀ (fuel : Nat) (s : Str) (prev : Option Char) (ctr : Nat) (p o : Str),
      MTok.tag p o ∈ (scanPassF m mk fuel prev s ctr).1 →
        (∃ j, p = mk j) ∧ ∀ x ∈ o, x ∈ s := by
  intro fuel
  induction fuel with
  | zero =>
    intro s prev ctr p o hmem
    simp [scanPassF] at hmem
  | succ fuel ih =>
    intro s prev ctr p o hmem
    cases s with
    | nil => simp [scanPassF] at hmem
    | cons c cs =>
      simp only [scanPassF] at hmem
      cases hm : m prev (c :: cs) with
      | some n =>
        rw [hm] at hmem
        simp only [List.mem_cons] at hmem
        rcases hmem with h1 | h1
        · rw [MTok.tag.injEq] at h1
          obtain ⟨rfl, rfl⟩ := h1
          exact ⟨⟨ctr, rfl⟩, fun x hx => List.mem_of_mem_take hx⟩
        · obtain ⟨hj, hchars⟩ := ih _ _ _ _ _ h1
          refine ⟨hj, fun x hx => ?_⟩
          have := hchars x hx
          have hsub : x ∈ cs := List.mem_of_mem_drop this
          simp [hsub]
      | none =>
        rw [hm] at hmem
        have hmem' : MTok.tag p o ∈ (scanPassF m mk fuel (some c) cs ctr).1 := by
          rcases hr : (scanPassF m mk fuel (some c) cs ctr).1 with _ | ⟨t0, ts0⟩
          · rw [hr] at hmem
            simp [consRaw] at hmem
          · rw [hr] at hmem
            cases t0 with
            | raw s0 =>
              simp only [consRaw, List.mem_cons] at hmem
              rcases hmem with h1 | h1
              · cases h1
              · exact List.mem_cons_of_mem _ h1
            | tag p0 o0 =>
              simp only [consRaw, List.mem_cons] at hmem
              rcases hmem with h1 | h1 | h1
              · cases h1
              · rw [h1]
                exact List.mem_cons_self _ _
              · exact List.mem_cons_of_mem _ h1
        obtain ⟨hj, hchars⟩ := ih _ _ _ _ _ hmem'
        exact ⟨hj, fun x hx => by have := hchars x hx; simp [this]⟩

/-- A scan output is well formed. -/
theorem scanPassF_wf (m : Option Char → Str → Option Nat) (mk : Nat → Str)
    (Hmk : ∀ n, PhKeyP (mk n)) :
    ∀ (fuel : Nat) (s : Str) (prev : Option Char) (ctr : Nat),
      TokWF (scanPassF m mk fuel prev s ctr).1 := by
  intro fuel
  induction fuel with
  | zero => intro s prev ctr; trivial
  | succ fuel ih =>
    intro s prev ctr
    cases s with
    | nil => trivial
    | cons c cs =>
      simp only [scanPassF]
      cases hm : m prev (c :: cs) with
      | some n => exact ⟨Hmk ctr, ih _ _ _⟩
      | none =>
        have hrec := ih cs (some c) ctr
        rcases hr : (scanPassF m mk fuel (some c) cs ctr).1 with _ | ⟨t0, ts0⟩
        · exact ⟨by simp, trivial⟩
        · rw [hr] at hrec
          cases t0 with
          | raw s0 =>
            cases ts0 with
            | nil => exact ⟨by simp, hrec.2⟩
            | cons t1 ts1 =>
              cases t1 with
              | raw s1 => cases hrec
              | tag p1 o1 => exact ⟨by simp, hrec.2⟩
          | tag p0 o0 => exact ⟨by simp, hrec⟩

/-- Tags of a token list and entries of its registry are the same pairs. -/
theorem tag_mem_entriesM (p o : Str) :
    ∀ fl : List MTok, MTok.tag p o ∈ fl ↔ (p, o) ∈ entriesM fl := by
  intro fl
  induction fl with
  | nil => simp [entriesM]
  | cons t ts ih =>
    cases t with
    | raw s =>
      simp only [entriesM, List.mem_cons, ih]
      constructor
      · rintro (h | h)
        · cases h
        · exact h
      · exact Or.inr
    | tag p0 o0 =>
      simp only [entriesM, List.mem_cons, ih, MTok.tag.injEq, Prod.mk.injEq]


theorem getLast?_if_isEmpty (c : Char) (cs : Str) :
    (if cs.isEmpty then some c else cs.getLast?) = (c :: cs).getLast? := by
  cases cs with
  | nil => rfl
  | cons y cs' =>
    rw [show ((y :: cs').isEmpty) = false from rfl]
    simp only [Bool.false_eq_true, if_false]
    exact (getLast?_cons_of_ne_nil (by simp)).symm

theorem getLast?_drop_of_ne_nil {l : Str} {k : Nat} (h : l.drop k ≠ []) :
    (l.drop k).getLast? = l.getLast? := by
  conv_rhs => rw [← List.take_append_drop k l]
  exact (List.getLast?_append_of_ne_nil (l.take k) h).symm

/-- One unfolding step of the scanner on a cons cell at exact fuel. -/
theorem scanPassF_cons (m : Option Char → Str → Option Nat) (mk : Nat → Str)
    (c : Char) (X : Str) (pv : Option Char) (ct : Nat) :
    scanPassF m mk (c :: X).length pv (c :: X) ct =
      match m pv (c :: X) with
      | some n =>
        (MTok.tag (mk ct) ((c :: X).take (max n 1)) ::
            (scanPassF m mk X.length ((c :: X).take (max n 1)).getLast?
              (X.drop (max n 1 - 1)) (ct + 1)).1,
          (scanPassF m mk X.length ((c :: X).take (max n 1)).getLast?
            (X.drop (max n 1 - 1)) (ct + 1)).2)
      | none =>
        (consRaw c (scanPassF m mk X.length (some c) X ct).1,
          (scanPassF m mk X.length (some c) X ct).2) := rfl


/-- Splitting a scan at a boundary: if at every position the matcher either
ignores the continuation `bc :: br` or produces a match that crosses into it,
then the scan of `σ ++ bc :: br` either records an original containing `bc`,
or decomposes into the scan of `σ` followed by the scan of `bc :: br` from
the threaded counter. -/
theorem scanPassF_split (m : Option Char → Str → Option Nat) (mk : Nat → Str)
    (bc : Char) (br : Str)
    (Hbreak : ∀ (pv : Option Char) (c : Char) (v : Str),
      m pv (c :: (v ++ bc :: br)) = m pv (c :: v) ∨
        ∃ n, m pv (c :: (v ++ bc :: br)) = some n ∧ v.length + 1 < n)
    (Hbound : ∀ (pv : Option Char) (c : Char) (v : Str) (n : Nat),
      m pv (c :: v) = some n → 1 ≤ n ∧ n ≤ v.length + 1) :
    ∀ (σ : Str) (prev : Option Char) (ctr : Nat),
      (∃ e ∈ entriesM (scanPassF m mk (σ ++ bc :: br).length prev (σ ++ bc :: br) ctr).1,
          bc ∈ e.2) ∨
      (renderM (scanPassF m mk (σ ++ bc :: br).length prev (σ ++ bc :: br) ctr).1 =
          renderM (scanPassF m mk σ.length prev σ ctr).1 ++
          renderM (scanPassF m mk (bc :: br).length
            (if σ.isEmpty then prev else σ.getLast?) (bc :: br)
            (scanPassF m mk σ.length prev σ ctr).2).1 ∧
        entriesM (scanPassF m mk (σ ++ bc :: br).length prev (σ ++ bc :: br) ctr).1 =
          entriesM (scanPassF m mk σ.length prev σ ctr).1 ++
          entriesM (scanPassF m mk (bc :: br).length
            (if σ.isEmpty then prev else σ.getLast?) (bc :: br)
            (scanPassF m mk σ.length prev σ ctr).2).1 ∧
        (scanPassF m mk (σ ++ bc :: br).length prev (σ ++ bc :: br) ctr).2 =
          (scanPassF m mk (bc :: br).length
            (if σ.isEmpty then prev else σ.getLast?) (bc :: br)
            (scanPassF m mk σ.length prev σ ctr).2).2) := by
  have main : ∀ (N : Nat) (σ : Str), σ.length ≤ N → ∀ (prev : Option Char) (ctr : Nat),
      (∃ e ∈ entriesM (scanPassF m mk (σ ++ bc :: br).length prev (σ ++ bc :: br) ctr).1,
          bc ∈ e.2) ∨
      (renderM (scanPassF m mk (σ ++ bc :: br).length prev (σ ++ bc :: br) ctr).1 =
          renderM (scanPassF m mk σ.length prev σ ctr).1 ++
          renderM (scanPassF m mk (bc :: br).length
            (if σ.isEmpty then prev else σ.getLast?) (bc :: br)
            (scanPassF m mk σ.length prev σ ctr).2).1 ∧
        entriesM (scanPassF m mk (σ ++ bc :: br).length prev (σ ++ bc :: br) ctr).1 =
          entriesM (scanPassF m mk σ.length prev σ ctr).1 ++
          entriesM (scanPassF m mk (bc :: br).length
            (if σ.isEmpty then prev else σ.getLast?) (bc :: br)
            (scanPassF m mk σ.length prev σ ctr).2).1 ∧
        (scanPassF m mk (σ ++ bc :: br).length prev (σ ++ bc :: br) ctr).2 =
          (scanPassF m mk (bc :: br).length
            (if σ.isEmpty then prev else σ.getLast?) (bc :: br)
            (scanPassF m mk σ.length prev σ ctr).2).2) := by
    intro N
    induction N with
    | zero =>
      intro σ hσ prev ctr
      have : σ = [] := List.length_eq_zero.mp (Nat.le_zero.mp hσ)
      subst this
      right
      refine ⟨by simp [scanPassF, renderM, entriesM], by simp [scanPassF, renderM, entriesM],
        by simp [scanPassF]⟩
    | succ N ihN =>
      intro σ hσ prev ctr
      cases σ with
      | nil =>
        right
        refine ⟨by simp [scanPassF, renderM, entriesM], by simp [scanPassF, renderM, entriesM],
        by simp [scanPassF]⟩
      | cons c cs =>
        rw [List.cons_append, scanPassF_cons, scanPassF_cons]
        rcases Hbreak prev c cs with hagree | ⟨n, hcross, hlt⟩
        · cases hmm : m prev (c :: cs) with
          | none =>
            rw [hagree, hmm]
            simp only
            have hlen : cs.length ≤ N := by
              simp only [List.length_cons] at hσ; omega
            rcases ihN cs hlen (some c) ctr with ⟨e, he, hbe⟩ | ⟨hr, hE, hc2⟩
            · left
              exact ⟨e, by simpa [entriesM_consRaw] using he, hbe⟩
            · right
              rw [show ((c :: cs).isEmpty) = false from rfl]
              simp only [Bool.false_eq_true, if_false]
              refine ⟨?_, ?_, ?_⟩
              · rw [renderM_consRaw, hr, renderM_consRaw, List.cons_append]
                rw [getLast?_if_isEmpty]
              · rw [entriesM_consRaw, hE, entriesM_consRaw]
                rw [getLast?_if_isEmpty]
              · rw [hc2, getLast?_if_isEmpty]
          | some n =>
            rw [hagree, hmm]
            simp only
            obtain ⟨hn1, hn2⟩ := Hbound prev c cs n hmm
            have hmax : max n 1 = n := by omega
            rw [hmax]
            have hmatched : (c :: (cs ++ bc :: br)).take n = (c :: cs).take n := by
              rw [← List.cons_append]
              exact List.take_append_of_le_length (by simpa using hn2)
            have hdrop : (cs ++ bc :: br).drop (n - 1) = cs.drop (n - 1) ++ bc :: br :=
              List.drop_append_of_le_length (by omega)
            rw [hmatched, hdrop]
            have hfuel1 : scanPassF m mk (cs ++ bc :: br).length ((c :: cs).take n).getLast?
                (cs.drop (n - 1) ++ bc :: br) (ctr + 1) =
                scanPassF m mk (cs.drop (n - 1) ++ bc :: br).length ((c :: cs).take n).getLast?
                  (cs.drop (n - 1) ++ bc :: br) (ctr + 1) := by
              apply scanPassF_stable
              · simp only [List.length_append, List.length_drop]
                omega
              · exact le_rfl
            have hfuel2 : scanPassF m mk cs.length ((c :: cs).take n).getLast?
                (cs.drop (n - 1)) (ctr + 1) =
                scanPassF m mk (cs.drop (n - 1)).length ((c :: cs).take n).getLast?
                  (cs.drop (n - 1)) (ctr + 1) := by
              apply scanPassF_stable
              · simp only [List.length_drop]; omega
              · exact le_rfl
            rw [hfuel1, hfuel2]
            have hlen : (cs.drop (n - 1)).length ≤ N := by
              simp only [List.length_drop]
              simp only [List.length_cons] at hσ
              omega
            rcases ihN (cs.drop (n - 1)) hlen ((c :: cs).take n).getLast? (ctr + 1) with
              ⟨e, he, hbe⟩ | ⟨hr, hE, hc2⟩
            · left
              refine ⟨e, ?_, hbe⟩
              simp only [entriesM]
              exact List.mem_cons_of_mem _ he
            · right
              rw [show ((c :: cs).isEmpty) = false from rfl]
              simp only [Bool.false_eq_true, if_false]
              have hprevB : (if (cs.drop (n - 1)).isEmpty then ((c :: cs).take n).getLast?
                  else (cs.drop (n - 1)).getLast?) = (c :: cs).getLast? := by
                cases hdn : cs.drop (n - 1) with
                | nil =>
                  rw [show (([] : Str).isEmpty) = true from rfl]
                  simp only [if_true]
                  have hcl : cs.length ≤ n - 1 := by
                    by_contra hcl
                    have := List.drop_eq_nil_iff.mp hdn
                    omega
                  have : (c :: cs).take n = c :: cs :=
                    List.take_of_length_le (by simp; omega)
                  rw [this]
                | cons d ds =>
                  rw [show (((d :: ds) : Str).isEmpty) = false from rfl]
                  simp only [Bool.false_eq_true, if_false]
                  rw [← hdn, getLast?_drop_of_ne_nil (by rw [hdn]; simp)]
                  have hcs : cs ≠ [] := by
                    intro h0
                    rw [h0] at hdn
                    simp at hdn
                  exact (getLast?_cons_of_ne_nil hcs).symm
              refine ⟨?_, ?_, ?_⟩
              · simp only [renderM]
                rw [hr, hprevB]
                simp [List.append_assoc]
              · simp only [entriesM]
                rw [hE, hprevB]
                simp
              · rw [hc2, hprevB]
        · rw [hcross]
          simp only
          left
          refine ⟨(mk ctr, (c :: (cs ++ bc :: br)).take (max n 1)), ?_, ?_⟩
          · simp [entriesM]
          · have hmax : max n 1 = n := by omega
            rw [hmax]
            have hL : (c :: (cs ++ bc :: br)) = (c :: (cs ++ [bc])) ++ br := by simp
            rw [hL, List.take_append_eq_append_take]
            have h1 : (c :: (cs ++ [bc])).take n = c :: (cs ++ [bc]) :=
              List.take_of_length_le (by simp; omega)
            rw [h1]
            exact List.mem_append_left _ (by simp)
  intro σ
  exact main σ.length σ le_rfl


/-! ## Round trip: lifting a pass over an existing token decomposition -/

theorem liftPass_renderR (m : Option Char → Str → Option Nat) (mk : Nat → Str) :
    ∀ (toks : List MTok) (prev : Option Char) (ctr : Nat),
      renderR (liftPass m mk prev toks ctr).1 = renderR toks := by
  intro toks
  induction toks with
  | nil => intro prev ctr; rfl
  | cons t ts ih =>
    intro prev ctr
    cases t with
    | raw s =>
      simp only [liftPass, renderR, renderR_append, scanPass]
      rw [ih, scanPassF_renderR m mk s.length s prev ctr le_rfl]
    | tag p o =>
      simp only [liftPass, renderR]
      rw [ih]

theorem liftPass_raw_free (m : Option Char → Str → Option Nat) (mk : Nat → Str)
    (x : Char) :
    ∀ (toks : List MTok) (prev : Option Char) (ctr : Nat),
      (∀ s, MTok.raw s ∈ toks → x ∉ s) →
      ∀ s', MTok.raw s' ∈ (liftPass m mk prev toks ctr).1 → x ∉ s' := by
  intro toks
  induction toks with
  | nil =>
    intro prev ctr _ s' hmem
    simp [liftPass] at hmem
  | cons t ts ih =>
    intro prev ctr hfree s' hmem
    cases t with
    | raw s =>
      simp only [liftPass] at hmem
      rcases List.mem_append.mp hmem with h1 | h1
      · intro hx
        have hxin := scanPassF_raw_mem m mk s.length s prev ctr s' h1 x hx
        exact hfree s (List.mem_cons_self _ _) hxin
      · exact ih _ _ (fun s0 hs0 => hfree s0 (List.mem_cons_of_mem _ hs0)) s' h1
    | tag p o =>
      simp only [liftPass, List.mem_cons] at hmem
      rcases hmem with h1 | h1
      · cases h1
      · exact ih _ _ (fun s0 hs0 => hfree s0 (List.mem_cons_of_mem _ hs0)) s' h1

theorem TokWF_cons_raw {s : Str} {ts : List MTok} (h : TokWF (MTok.raw s :: ts)) :
    s ≠ [] ∧ TokWF ts := by
  cases ts with
  | nil => exact ⟨h.1, trivial⟩
  | cons t ts' =>
    cases t with
    | raw s' => cases h
    | tag p o => exact ⟨h.1, h.2⟩

theorem TokWF_cons_tag {p o : Str} {ts : List MTok} (h : TokWF (MTok.tag p o :: ts)) :
    PhKeyP p ∧ TokWF ts := h

theorem TokWF_append : ∀ {xs ys : List MTok}, TokWF xs → TokWF ys →
    (match ys with | MTok.raw _ :: _ => False | _ => True) → TokWF (xs ++ ys) := by
  intro xs
  induction xs with
  | nil => intro ys _ hy _; simpa
  | cons t ts ih =>
    intro ys hx hy hhead
    cases t with
    | tag p o =>
      obtain ⟨hp, hts⟩ := TokWF_cons_tag hx
      exact ⟨hp, ih hts hy hhead⟩
    | raw s =>
      obtain ⟨hs, hts⟩ := TokWF_cons_raw hx
      cases ts with
      | nil =>
        cases ys with
        | nil => exact ⟨hs, trivial⟩
        | cons y ys' =>
          cases y with
          | raw s' => cases hhead
          | tag p o => exact ⟨hs, hy⟩
      | cons t' ts' =>
        cases t' with
        | raw s' => cases hx
        | tag p o =>
          have := ih hts hy hhead
          exact ⟨hs, this⟩

theorem liftPass_wf (m : Option Char → Str → Option Nat) (mk : Nat → Str)
    (Hmk : ∀ n, PhKeyP (mk n)) :
    ∀ (toks : List MTok) (prev : Option Char) (ctr : Nat), TokWF toks →
      TokWF (liftPass m mk prev toks ctr).1 := by
  intro toks
  induction toks with
  | nil => intro prev ctr _; trivial
  | cons t ts ih =>
    intro prev ctr hwf
    cases t with
    | raw s =>
      obtain ⟨hs, hts⟩ := TokWF_cons_raw hwf
      simp only [liftPass]
      refine TokWF_append (scanPassF_wf m mk Hmk s.length s prev ctr) (ih _ _ hts) ?_
      cases hts2 : (liftPass m mk (if s.isEmpty = true then prev else s.getLast?) ts
          ((scanPass m mk prev s ctr).2)).1 with
      | nil => trivial
      | cons y ys' =>
        cases y with
        | tag p o => trivial
        | raw s' =>
          exfalso
          cases ts with
          | nil =>
            simp [liftPass] at hts2
          | cons t' ts' =>
            cases t' with
            | raw s0 => cases hwf
            | tag p0 o0 =>
              simp only [liftPass] at hts2
              simp at hts2
    | tag p o =>
      obtain ⟨hp, hts⟩ := TokWF_cons_tag hwf
      exact ⟨hp, ih _ _ hts⟩


/-- Relating one pass over the rendered text of a well-formed token list to
the lifted pass over the tokens: unless the flat pass records an original
containing `[` (a match crossing into a placeholder), it produces the same
rendered text and counter as the lifted pass, and the lifted tokens carry no
entries beyond the old ones and the flat pass's new ones. -/
theorem liftPass_split (m : Option Char → Str → Option Nat) (mk : Nat → Str)
    (Hbreak : ∀ (pv : Option Char) (c : Char) (v r : Str),
      m pv (c :: (v ++ '[' :: r)) = m pv (c :: v) ∨
        ∃ n, m pv (c :: (v ++ '[' :: r)) = some n ∧ v.length + 1 < n)
    (Hbound : ∀ (pv : Option Char) (c : Char) (v : Str) (n : Nat),
      m pv (c :: v) = some n → 1 ≤ n ∧ n ≤ v.length + 1)
    (Hph : ∀ mid, PhMidP mid → ∀ u c v (B : Str) (pv : Option Char),
      phWrap mid = u ++ c :: v → (u ≠ [] → pv = u.getLast?) →
      m pv (c :: (v ++ B)) = none) :
    ∀ (toks : List MTok) (prev : Option Char) (ctr : Nat), TokWF toks →
      (∃ e ∈ entriesM (scanPass m mk prev (renderM toks) ctr).1, '[' ∈ e.2) ∨
      (renderM (scanPass m mk prev (renderM toks) ctr).1 =
          renderM (liftPass m mk prev toks ctr).1 ∧
        (∀ pr, pr ∈ entriesM (liftPass m mk prev toks ctr).1 →
          pr ∈ entriesM toks ∨ pr ∈ entriesM (scanPass m mk prev (renderM toks) ctr).1) ∧
        (scanPass m mk prev (renderM toks) ctr).2 = (liftPass m mk prev toks ctr).2) := by
  intro toks
  induction toks with
  | nil =>
    intro prev ctr _
    right
    refine ⟨rfl, ?_, rfl⟩
    intro pr hpr
    simp [liftPass, entriesM] at hpr
  | cons t ts ih =>
    intro prev ctr hwf
    cases t with
    | raw s =>
      obtain ⟨hs, hts⟩ := TokWF_cons_raw hwf
      cases ts with
      | nil =>
        right
        have h0 : renderM (MTok.raw s :: ([] : List MTok)) = s := by
          simp [renderM]
        rw [h0]
        refine ⟨?_, ?_, ?_⟩
        · simp [liftPass, renderM_append, renderM]
        · intro pr hpr
          right
          simp only [liftPass, entriesM_append] at hpr
          simpa [liftPass, entriesM] using hpr
        · simp [liftPass]
      | cons t' ts' =>
        cases t' with
        | raw s0 => cases hwf
        | tag p o =>
          obtain ⟨hp, hts'⟩ := TokWF_cons_tag hts
          obtain ⟨mid, hmidP, rfl⟩ := hp
          set br : Str := ('[' :: (mid ++ [']', ']'])) ++ renderM ts' with hbr
          have hBts : renderM (MTok.tag (phWrap mid) o :: ts') = '[' :: br := by
            simp [renderM, phWrap, hbr]
          have hflat : renderM (MTok.raw s :: MTok.tag (phWrap mid) o :: ts') =
              s ++ '[' :: br := by
            simp only [renderM, hBts]
            simp [renderM, phWrap, hbr]
          have hunfold : scanPass m mk prev
              (renderM (MTok.raw s :: MTok.tag (phWrap mid) o :: ts')) ctr =
              scanPassF m mk (s ++ '[' :: br).length prev (s ++ '[' :: br) ctr := by
            rw [scanPass, hflat]
          rw [hunfold]
          rcases scanPassF_split m mk '[' br (fun pv c v => Hbreak pv c v br) Hbound
              s prev ctr with ⟨e, he, hbe⟩ | ⟨hr1, hE1, hc1⟩
          · exact Or.inl ⟨e, he, hbe⟩
          · have hprev' : (if s.isEmpty then prev else s.getLast?) =
                (if s.isEmpty = true then prev else s.getLast?) := rfl
            have hihscan : scanPass m mk (if s.isEmpty = true then prev else s.getLast?)
                (renderM (MTok.tag (phWrap mid) o :: ts'))
                (scanPassF m mk s.length prev s ctr).2 =
                scanPassF m mk ('[' :: br).length (if s.isEmpty then prev else s.getLast?)
                  ('[' :: br) (scanPassF m mk s.length prev s ctr).2 := by
              rw [scanPass, hBts]
            rcases ih (if s.isEmpty = true then prev else s.getLast?)
                (scanPassF m mk s.length prev s ctr).2 hts with ⟨e, he, hbe⟩ | ⟨hr2, hE2, hc2⟩
            · rw [hihscan] at he
              refine Or.inl ⟨e, ?_, hbe⟩
              rw [hE1]
              exact List.mem_append_right _ he
            · rw [hihscan] at hr2 hE2 hc2
              right
              have hlift : liftPass m mk prev (MTok.raw s :: MTok.tag (phWrap mid) o :: ts') ctr =
                  ((scanPass m mk prev s ctr).1 ++
                    (liftPass m mk (if s.isEmpty = true then prev else s.getLast?)
                      (MTok.tag (phWrap mid) o :: ts') (scanPass m mk prev s ctr).2).1,
                   (liftPass m mk (if s.isEmpty = true then prev else s.getLast?)
                      (MTok.tag (phWrap mid) o :: ts') (scanPass m mk prev s ctr).2).2) := rfl
              rw [hlift]
              refine ⟨?_, ?_, ?_⟩
              · rw [hr1, renderM_append, hr2]
                rfl
              · intro pr hpr
                simp only [entriesM_append, List.mem_append] at hpr
                rcases hpr with h1 | h1
                · right
                  rw [hE1]
                  exact List.mem_append_left _ h1
                · rcases hE2 pr h1 with h2 | h2
                  · left
                    simpa [entriesM] using h2
                  · right
                    rw [hE1]
                    exact List.mem_append_right _ h2
              · rw [hc1, hc2]
                rfl
    | tag p o =>
      obtain ⟨hp, hts⟩ := TokWF_cons_tag hwf
      obtain ⟨mid, hmidP, rfl⟩ := hp
      have hflat : renderM (MTok.tag (phWrap mid) o :: ts) =
          phWrap mid ++ renderM ts := rfl
      have hunfold : scanPass m mk prev (renderM (MTok.tag (phWrap mid) o :: ts)) ctr =
          scanPassF m mk (phWrap mid ++ renderM ts).length prev
            (phWrap mid ++ renderM ts) ctr := by
        rw [scanPass, hflat]
      rw [hunfold]
      have hskip := scanPassF_ph_skip m mk
        (fun u c v B pv h hcond => Hph mid hmidP u c v B pv h hcond) (renderM ts) prev ctr
      rw [hskip]
      have hihscan : scanPass m mk (some ']') (renderM ts) ctr =
          scanPassF m mk (renderM ts).length (some ']') (renderM ts) ctr := rfl
      rcases ih (some ']') ctr hts with ⟨e, he, hbe⟩ | ⟨hr2, hE2, hc2⟩
      · rw [hihscan] at he
        refine Or.inl ⟨e, ?_, hbe⟩
        rw [entriesM_foldr_consRaw]
        exact he
      · rw [hihscan] at hr2 hE2 hc2
        right
        have hlift : liftPass m mk prev (MTok.tag (phWrap mid) o :: ts) ctr =
            (MTok.tag (phWrap mid) o :: (liftPass m mk (some ']') ts ctr).1,
             (liftPass m mk (some ']') ts ctr).2) := rfl
        rw [hlift]
        refine ⟨?_, ?_, ?_⟩
        · rw [renderM_foldr_consRaw, hr2]
          rfl
        · intro pr hpr
          simp only [entriesM, List.mem_cons] at hpr
          rcases hpr with h1 | h1
          · left
            simp [entriesM, h1]
          · rcases hE2 pr h1 with h2 | h2
            · left
              simp [entriesM, h2]
            · right
              rw [entriesM_foldr_consRaw]
              exact h2
        · exact hc2


/-! ## Round trip: the reduction replaces exactly the tags -/

theorem pfxB_head_ne {a c : Char} {as X : Str} (h : c ≠ a) :
    pfxB (a :: as) (c :: X) = false := by
  show (decide (a = c) && pfxB as X) = false
  rw [decide_eq_false (fun h' => h h'.symm), Bool.false_and]

theorem mid_close_eq2 {m1 m2 b1 b2 : Str}
    (hb1 : ∀ c ∈ m1, c ≠ ']') (hb2 : ∀ c ∈ m2, c ≠ ']')
    (h : m1 ++ ']' :: ']' :: b1 = m2 ++ ']' :: ']' :: b2) : m1 = m2 ∧ b1 = b2 := by
  induction m1 generalizing m2 with
  | nil =>
    cases m2 with
    | nil =>
      simp only [List.nil_append, List.cons.injEq, true_and] at h
      simp_all
    | cons d m2' =>
      simp only [List.nil_append, List.cons_append, List.cons.injEq] at h
      exact absurd h.1.symm (hb2 d (by simp))
  | cons c m1' ih =>
    cases m2 with
    | nil =>
      simp only [List.cons_append, List.nil_append, List.cons.injEq] at h
      exact absurd h.1 (hb1 c (by simp))
    | cons d m2' =>
      simp only [List.cons_append, List.cons.injEq] at h
      obtain ⟨rfl, h2⟩ := h
      obtain ⟨rfl, hb⟩ := ih (fun x hx => hb1 x (by simp [hx]))
        (fun x hx => hb2 x (by simp [hx])) h2
      exact ⟨rfl, hb⟩

/-- A placeholder key is never a prefix of a different placeholder key
followed by anything. -/
theorem phKey_pfx_false {m1 m2 : Str} (hb1 : ∀ c ∈ m1, c ≠ ']')
    (hb2 : ∀ c ∈ m2, c ≠ ']') (hne : m1 ≠ m2) (rest : Str) :
    pfxB (phWrap m1) (phWrap m2 ++ rest) = false := by
  cases hp : pfxB (phWrap m1) (phWrap m2 ++ rest) with
  | false => rfl
  | true =>
    exfalso
    obtain ⟨r, hr⟩ := (pfxB_iff _ _).mp hp
    simp only [phWrap, List.cons_append, List.cons.injEq, true_and] at hr
    have h' : m2 ++ ']' :: ']' :: rest = m1 ++ ']' :: ']' :: r := by
      have := hr
      rw [List.append_assoc, List.append_assoc] at this
      simpa using this
    exact hne (mid_close_eq2 hb2 hb1 h').1.symm

/-- Positions where the pattern does not occur pass through `str.replace`
unchanged. -/
theorem replaceAllF_walk (p o : Str) :
    ∀ (x B : Str),
      (∀ u c v, x = u ++ c :: v → pfxB p (c :: (v ++ B)) = false) →
      replaceAllF p o (x ++ B).length (x ++ B) = x ++ replaceAllF p o B.length B := by
  intro x
  induction x with
  | nil => intro B _; simp
  | cons c x' ih =>
    intro B H
    have hm : pfxB p (c :: (x' ++ B)) = false := by simpa using H [] c x' rfl
    rw [List.cons_append]
    show replaceAllF p o ((x' ++ B).length + 1) (c :: (x' ++ B)) = _
    simp only [replaceAllF, hm]
    rw [if_neg Bool.false_ne_true]
    rw [ih B (fun u c' v hx => H (c :: u) c' v (by simp [hx]))]
    simp


/-- One unfolding step of `str.replace` on a cons cell at exact fuel. -/
theorem replaceAllF_cons (p o : Str) (c : Char) (X : Str) :
    replaceAllF p o (c :: X).length (c :: X) =
      if pfxB p (c :: X) then o ++ replaceAllF p o X.length (X.drop (p.length - 1))
      else c :: replaceAllF p o X.length X := rfl

/-- Replacing a placeholder key by its original in the rendered text is the
rendering of the token-level replacement, provided raw chunks contain no `[`,
all tags are generated placeholders, and tags carrying the key carry the
original being substituted. -/
theorem replaceAll_render {mid : Str} (hmid : PhMidP mid) (o : Str) :
    ∀ fl : List MTok,
      (∀ s, MTok.raw s ∈ fl → '[' ∉ s) →
      (∀ p' o', MTok.tag p' o' ∈ fl → PhKeyP p') →
      (∀ o', MTok.tag (phWrap mid) o' ∈ fl → o' = o) →
      replaceAll (renderM fl) (phWrap mid) o = renderM (replTag (phWrap mid) fl) := by
  have hwne : phWrap mid ≠ [] := by simp [phWrap]
  have hmidb : ∀ c ∈ mid, c ≠ ']' := fun c hc => midC_not_rbracket (hmid.2 c hc)
  have main : ∀ fl : List MTok,
      (∀ s, MTok.raw s ∈ fl → '[' ∉ s) →
      (∀ p' o', MTok.tag p' o' ∈ fl → PhKeyP p') →
      (∀ o', MTok.tag (phWrap mid) o' ∈ fl → o' = o) →
      replaceAllF (phWrap mid) o (renderM fl).length (renderM fl) =
        renderM (replTag (phWrap mid) fl) := by
    intro fl
    induction fl with
    | nil => intro _ _ _; rfl
    | cons t fl' ih =>
      intro hraw htag hko
      have hraw' : ∀ s, MTok.raw s ∈ fl' → '[' ∉ s :=
        fun s hs => hraw s (List.mem_cons_of_mem _ hs)
      have htag' : ∀ p' o', MTok.tag p' o' ∈ fl' → PhKeyP p' :=
        fun p' o' h => htag p' o' (List.mem_cons_of_mem _ h)
      have hko' : ∀ o', MTok.tag (phWrap mid) o' ∈ fl' → o' = o :=
        fun o' h => hko o' (List.mem_cons_of_mem _ h)
      cases t with
      | raw s =>
        have hsfree : '[' ∉ s := hraw s (List.mem_cons_self _ _)
        have hren : renderM (MTok.raw s :: fl') = s ++ renderM fl' := rfl
        rw [hren]
        rw [replaceAllF_walk (phWrap mid) o s (renderM fl') ?_]
        · rw [ih hraw' htag' hko']
          rfl
        · intro u c v hx
          have hc : c ≠ '[' := by
            intro h0
            apply hsfree
            rw [hx, h0]
            simp
          rw [show phWrap mid = '[' :: ('[' :: (mid ++ [']', ']'])) from rfl]
          exact pfxB_head_ne hc
      | tag p' o' =>
        obtain ⟨m', hm', rfl⟩ := htag p' o' (List.mem_cons_self _ _)
        by_cases hk : m' = mid
        · subst hk
          have ho : o' = o := hko o' (List.mem_cons_self _ _)
          rw [ho]
          have hren : renderM (MTok.tag (phWrap m') o :: fl') =
              '[' :: (('[' :: (m' ++ [']', ']'])) ++ renderM fl') := by
            simp [renderM, phWrap]
          rw [hren, replaceAllF_cons]
          have hpfx : pfxB (phWrap m') ('[' :: (('[' :: (m' ++ [']', ']'])) ++ renderM fl')) =
              true := by
            rw [show ('[' :: (('[' :: (m' ++ [']', ']'])) ++ renderM fl')) =
              phWrap m' ++ renderM fl' from by simp [phWrap]]
            exact (pfxB_iff _ _).mpr ⟨renderM fl', rfl⟩
          rw [hpfx, if_pos rfl]
          have hlen : (phWrap m').length - 1 = ('[' :: (m' ++ [']', ']'])).length := by
            simp [phWrap]
          rw [hlen, List.drop_left]
          have hstab : replaceAllF (phWrap m') o (('[' :: (m' ++ [']', ']'])) ++
              renderM fl').length (renderM fl') =
              replaceAllF (phWrap m') o (renderM fl').length (renderM fl') := by
            apply replaceAllF_stable
            · simp
              omega
            · exact le_rfl
          rw [hstab, ih hraw' htag' hko']
          have : replTag (phWrap m') (MTok.tag (phWrap m') o :: fl') =
              MTok.raw o :: replTag (phWrap m') fl' := by
            simp [replTag]
          rw [this]
          rfl
        · have hm'b : ∀ c ∈ m', c ≠ ']' := fun c hc => midC_not_rbracket (hm'.2 c hc)
          have hren : renderM (MTok.tag (phWrap m') o' :: fl') =
              phWrap m' ++ renderM fl' := rfl
          rw [hren]
          rw [replaceAllF_walk (phWrap mid) o (phWrap m') (renderM fl') ?_]
          · rw [ih hraw' htag' hko']
            have : replTag (phWrap mid) (MTok.tag (phWrap m') o' :: fl') =
                MTok.tag (phWrap m') o' :: replTag (phWrap mid) fl' := by
              simp [replTag]
              intro h0
              exact absurd (phWrap_inj h0) hk
            rw [this]
            rfl
          · intro u c v hx
            cases u with
            | nil =>
              simp only [List.nil_append] at hx
              have hc : c = '[' := by
                have := congrArg (fun l => l.headD ' ') hx
                simpa [phWrap] using this.symm
              have hv : v = '[' :: (m' ++ [']', ']']) := by
                rw [show phWrap m' = '[' :: ('[' :: (m' ++ [']', ']'])) from rfl] at hx
                subst hc
                exact (List.cons.injEq .. ▸ hx).2.symm
              subst hc
              subst hv
              rw [show ('[' :: (('[' :: (m' ++ [']', ']'])) ++ renderM fl')) =
                phWrap m' ++ renderM fl' from by simp [phWrap]]
              exact phKey_pfx_false hmidb hm'b (fun h => hk h.symm) (renderM fl')
            | cons u1 u' =>
              cases u' with
              | nil =>
                have hx' : '[' :: '[' :: (m' ++ [']', ']']) = u1 :: c :: v := by
                  simpa [phWrap] using hx
                have hc : c = '[' := by
                  have := congrArg (fun l => (l.drop 1).headD ' ') hx'
                  simpa using this.symm
                have hv : v = m' ++ [']', ']'] := by
                  have h1 := (List.cons.injEq .. ▸ hx').2
                  have h2 := (List.cons.injEq .. ▸ h1).2
                  exact h2.symm
                subst hc
                subst hv
                obtain ⟨mh, mt, hm0, hup⟩ := hm'.1
                rw [hm0]
                rw [show phWrap mid = '[' :: ('[' :: (mid ++ [']', ']'])) from rfl]
                show (decide ('[' = '[') && pfxB ('[' :: (mid ++ [']', ']']))
                  ((mh :: mt ++ [']', ']']) ++ renderM fl')) = false
                rw [show ((mh :: mt ++ [']', ']']) ++ renderM fl') =
                  mh :: (mt ++ [']', ']'] ++ renderM fl') from by simp]
                have hmh : mh ≠ '[' := midC_not_lbracket (hm'.2 mh (by rw [hm0]; simp))
                rw [pfxB_head_ne hmh]
                simp
              | cons u2 u'' =>
                have hx' : '[' :: '[' :: (m' ++ [']', ']']) = u1 :: u2 :: (u'' ++ c :: v) := by
                  simpa [phWrap] using hx
                have h1 := (List.cons.injEq .. ▸ hx').2
                have h2 := (List.cons.injEq .. ▸ h1).2
                have hcmem : c ∈ m' ++ [']', ']'] := by
                  rw [h2]
                  simp
                have hc : c ≠ '[' := by
                  rcases List.mem_append.mp hcmem with hm0 | hm0
                  · exact midC_not_lbracket (hm'.2 c hm0)
                  · intro h0
                    rw [h0] at hm0
                    simp at hm0
                rw [show phWrap mid = '[' :: ('[' :: (mid ++ [']', ']'])) from rfl]
                exact pfxB_head_ne hc
  intro fl hraw htag hko
  rw [replaceAll, if_neg hwne]
  exact main fl hraw htag hko


theorem renderR_replTag (k : Str) : ∀ fl : List MTok, renderR (replTag k fl) = renderR fl := by
  intro fl
  induction fl with
  | nil => rfl
  | cons t fl' ih =>
    cases t with
    | raw s =>
      show renderR (MTok.raw s :: replTag k fl') = renderR (MTok.raw s :: fl')
      simp only [renderR, ih]
    | tag p o =>
      by_cases hp : p = k
      · have hstep : replTag k (MTok.tag p o :: fl') = MTok.raw o :: replTag k fl' := by
          simp [replTag, hp]
        rw [hstep]
        simp only [renderR, ih]
      · have hstep : replTag k (MTok.tag p o :: fl') = MTok.tag p o :: replTag k fl' := by
          simp [replTag, hp]
        rw [hstep]
        simp only [renderR, ih]

theorem replTag_raw_mem {k : Str} : ∀ {fl : List MTok} {s : Str},
    MTok.raw s ∈ replTag k fl → MTok.raw s ∈ fl ∨ MTok.tag k s ∈ fl := by
  intro fl
  induction fl with
  | nil => intro s h; simp [replTag] at h
  | cons t fl' ih =>
    intro s h
    cases t with
    | raw s0 =>
      rw [show replTag k (MTok.raw s0 :: fl') = MTok.raw s0 :: replTag k fl' from rfl,
        List.mem_cons] at h
      rcases h with h1 | h1
      · injection h1 with h2
        subst h2
        exact Or.inl (List.mem_cons_self _ _)
      · rcases ih h1 with h2 | h2
        · exact Or.inl (List.mem_cons_of_mem _ h2)
        · exact Or.inr (List.mem_cons_of_mem _ h2)
    | tag p o =>
      by_cases hp : p = k
      · rw [show replTag k (MTok.tag p o :: fl') = MTok.raw o :: replTag k fl' from by
          simp [replTag, hp], List.mem_cons] at h
        rcases h with h1 | h1
        · injection h1 with h2
          subst h2
          subst hp
          exact Or.inr (List.mem_cons_self _ _)
        · rcases ih h1 with h2 | h2
          · exact Or.inl (List.mem_cons_of_mem _ h2)
          · exact Or.inr (List.mem_cons_of_mem _ h2)
      · rw [show replTag k (MTok.tag p o :: fl') = MTok.tag p o :: replTag k fl' from by
          simp [replTag, hp], List.mem_cons] at h
        rcases h with h1 | h1
        · cases h1
        · rcases ih h1 with h2 | h2
          · exact Or.inl (List.mem_cons_of_mem _ h2)
          · exact Or.inr (List.mem_cons_of_mem _ h2)

theorem replTag_tag_mem {k : Str} : ∀ {fl : List MTok} {p o : Str},
    MTok.tag p o ∈ replTag k fl → MTok.tag p o ∈ fl ∧ p ≠ k := by
  intro fl
  induction fl with
  | nil => intro p o h; simp [replTag] at h
  | cons t fl' ih =>
    intro p o h
    cases t with
    | raw s0 =>
      rw [show replTag k (MTok.raw s0 :: fl') = MTok.raw s0 :: replTag k fl' from rfl,
        List.mem_cons] at h
      rcases h with h1 | h1
      · cases h1
      · obtain ⟨h2, h3⟩ := ih h1
        exact ⟨List.mem_cons_of_mem _ h2, h3⟩
    | tag p0 o0 =>
      by_cases hp : p0 = k
      · rw [show replTag k (MTok.tag p0 o0 :: fl') = MTok.raw o0 :: replTag k fl' from by
          simp [replTag, hp], List.mem_cons] at h
        rcases h with h1 | h1
        · cases h1
        · obtain ⟨h2, h3⟩ := ih h1
          exact ⟨List.mem_cons_of_mem _ h2, h3⟩
      · rw [show replTag k (MTok.tag p0 o0 :: fl') = MTok.tag p0 o0 :: replTag k fl' from by
          simp [replTag, hp], List.mem_cons] at h
        rcases h with h1 | h1
        · injection h1 with h2 h3
          subst h2
          subst h3
          exact ⟨List.mem_cons_self _ _, hp⟩
        · obtain ⟨h2, h3⟩ := ih h1
          exact ⟨List.mem_cons_of_mem _ h2, h3⟩

theorem renderM_eq_renderR_of_no_tags : ∀ {fl : List MTok},
    (∀ p o, MTok.tag p o ∉ fl) → renderM fl = renderR fl := by
  intro fl
  induction fl with
  | nil => intro _; rfl
  | cons t fl' ih =>
    intro h
    cases t with
    | raw s =>
      simp only [renderM, renderR]
      rw [ih (fun p o hmem => h p o (List.mem_cons_of_mem _ hmem))]
    | tag p o => exact absurd (List.mem_cons_self _ _) (h p o)

/-- Folding the registry over the rendered text of a token list whose tags
all appear in the registry restores the original rendering: each entry
replaces exactly its own tags. -/
theorem reduce_fold : ∀ (R : List (Str × Str)) (fl : List MTok),
    (∀ e ∈ R, PhKeyP e.1) → (∀ e ∈ R, '[' ∉ e.2) → (R.map Prod.fst).Nodup →
    (∀ p' o', MTok.tag p' o' ∈ fl → (p', o') ∈ R) →
    (∀ s, MTok.raw s ∈ fl → '[' ∉ s) →
    R.foldl (fun acc e => replaceAll acc e.1 e.2) (renderM fl) = renderR fl := by
  intro R
  induction R with
  | nil =>
    intro fl _ _ _ htag _
    simp only [List.foldl_nil]
    exact renderM_eq_renderR_of_no_tags (fun p o hmem => by
      have := htag p o hmem
      simp at this)
  | cons e R' ih =>
    intro fl hkey hfree hnodup htag hraw
    obtain ⟨k, o⟩ := e
    obtain ⟨mid, hmidP, rfl⟩ := hkey (k, o) (List.mem_cons_self _ _)
    have hnd : (∀ x : Str, (phWrap mid, x) ∉ R') ∧ (R'.map Prod.fst).Nodup := by
      simpa using hnodup
    simp only [List.foldl_cons]
    rw [show replaceAll (renderM fl) (phWrap mid, o).1 (phWrap mid, o).2 =
        replaceAll (renderM fl) (phWrap mid) o from rfl]
    rw [replaceAll_render hmidP o fl hraw
      (fun p' o' h => hkey (p', o') (htag p' o' h))
      (fun o' h => by
        have hin := htag _ _ h
        rcases List.mem_cons.mp hin with h1 | h1
        · exact (Prod.mk.injEq .. ▸ h1).2
        · exact absurd h1 (hnd.1 o'))]
    rw [ih (replTag (phWrap mid) fl)
      (fun e he => hkey e (List.mem_cons_of_mem _ he))
      (fun e he => hfree e (List.mem_cons_of_mem _ he))
      hnd.2
      (fun p' o' h => by
        obtain ⟨hm, hne⟩ := replTag_tag_mem h
        rcases List.mem_cons.mp (htag p' o' hm) with h1 | h1
        · exact absurd (Prod.mk.injEq .. ▸ h1).1 hne
        · exact h1)
      (fun s h => by
        rcases replTag_raw_mem h with h1 | h1
        · exact hraw s h1
        · exact hfree (phWrap mid, s) (htag _ _ h1))]
    exact renderR_replTag _ fl


/-! ## Faithful suffix draws: placeholders built from `uuid4().hex[:4].upper()` -/

theorem hexC_isUpper {c : Char} (h : ('A' ≤ c && c ≤ 'F') = true) : c.isUpper = true := by
  rw [Bool.and_eq_true] at h
  obtain ⟨hA, hF⟩ := h
  rw [decide_eq_true_eq] at hA hF
  have hA' : ('A' : Char).val ≤ c.val := hA
  have hF' : c.val ≤ ('F' : Char).val := hF
  have h1 : ('A' : Char).val.toNat ≤ c.val.toNat := by exact_mod_cast hA'
  have h2 : c.val.toNat ≤ ('F' : Char).val.toNat := by exact_mod_cast hF'
  have hAv : ('A' : Char).val.toNat = 65 := by decide
  have hFv : ('F' : Char).val.toNat = 70 := by decide
  simp only [Char.isUpper, Bool.and_eq_true, decide_eq_true_eq]
  constructor
  · have h3 : (65 : UInt32).toNat ≤ c.val.toNat := by
      have h4 : (65 : UInt32).toNat = 65 := by decide
      omega
    exact_mod_cast h3
  · have h3 : c.val.toNat ≤ (90 : UInt32).toNat := by
      have h4 : (90 : UInt32).toNat = 90 := by decide
      omega
    exact_mod_cast h3

theorem hexC_midC {c : Char} (h : hexC c = true) : midC c = true := by
  rw [hexC, Bool.or_eq_true] at h
  rcases h with h | h
  · simp [midC, h]
  · simp [midC, hexC_isUpper h]

theorem hexC_ne_unders {c : Char} (h : hexC c = true) : c ≠ '_' := by
  intro h0
  rw [h0] at h
  exact absurd h (by decide)

theorem sep_split_inj {L1 L2 s1 s2 : Str} (h1 : '_' ∉ L1) (h2 : '_' ∉ L2)
    (h : L1 ++ '_' :: s1 = L2 ++ '_' :: s2) : L1 = L2 ∧ s1 = s2 := by
  induction L1 generalizing L2 with
  | nil =>
    cases L2 with
    | nil => simpa using h
    | cons d L2' =>
      simp only [List.nil_append, List.cons_append, List.cons.injEq] at h
      exact absurd (List.mem_cons.mpr (Or.inl h.1)) h2
  | cons a L1' ih =>
    cases L2 with
    | nil =>
      simp only [List.cons_append, List.nil_append, List.cons.injEq] at h
      exact absurd (List.mem_cons.mpr (Or.inl h.1.symm)) h1
    | cons b L2' =>
      simp only [List.cons_append, List.cons.injEq] at h
      obtain ⟨rfl, h3⟩ := h
      obtain ⟨rfl, h4⟩ := ih (fun hx => h1 (List.mem_cons_of_mem _ hx))
        (fun hx => h2 (List.mem_cons_of_mem _ hx)) h3
      exact ⟨rfl, h4⟩

theorem phMidD_midC {lab : Str} (hlab : ∀ c ∈ lab, midC c = true) {sfx : Str}
    (hs : ∀ c ∈ sfx, hexC c = true) : ∀ c ∈ phMidD lab sfx, midC c = true := by
  intro c hc
  rcases List.mem_append.mp hc with h | h
  · exact hlab c h
  · rcases List.mem_cons.mp h with rfl | h
    · decide
    · exact hexC_midC (hs c h)

theorem PhMidP_phMidD {lab : Str} (h1 : ∃ c cs, lab = c :: cs ∧ c.isUpper = true)
    (h2 : ∀ c ∈ lab, midC c = true) {sfx : Str} (hs : ∀ c ∈ sfx, hexC c = true) :
    PhMidP (phMidD lab sfx) := by
  obtain ⟨c, cs, rfl, hc⟩ := h1
  exact ⟨⟨c, cs ++ '_' :: sfx, by simp [phMidD], hc⟩, phMidD_midC h2 hs⟩

theorem PhMidP_D_E {sfx : Str} (hs : ∀ c ∈ sfx, hexC c = true) :
    PhMidP (phMidD labE sfx) :=
  PhMidP_phMidD ⟨'E', _, rfl, by decide⟩ labels_midC.1 hs

theorem PhMidP_D_I {sfx : Str} (hs : ∀ c ∈ sfx, hexC c = true) :
    PhMidP (phMidD labI sfx) :=
  PhMidP_phMidD ⟨'I', _, rfl, by decide⟩ labels_midC.2.1 hs

theorem PhMidP_D_U {sfx : Str} (hs : ∀ c ∈ sfx, hexC c = true) :
    PhMidP (phMidD labU sfx) :=
  PhMidP_phMidD ⟨'U', _, rfl, by decide⟩ labels_midC.2.2 hs

theorem PhKeyP_phKeyD_E {sfx : Str} (hs : ∀ c ∈ sfx, hexC c = true) :
    PhKeyP (phKeyD labE sfx) := ⟨phMidD labE sfx, PhMidP_D_E hs, rfl⟩

theorem PhKeyP_phKeyD_I {sfx : Str} (hs : ∀ c ∈ sfx, hexC c = true) :
    PhKeyP (phKeyD labI sfx) := ⟨phMidD labI sfx, PhMidP_D_I hs, rfl⟩

theorem PhKeyP_phKeyD_U {sfx : Str} (hs : ∀ c ∈ sfx, hexC c = true) :
    PhKeyP (phKeyD labU sfx) := ⟨phMidD labU sfx, PhMidP_D_U hs, rfl⟩

/-- Two drawn placeholders with underscore-free labels coincide only when
both the label and the drawn suffix coincide. -/
theorem phKeyD_inj {lab1 lab2 : Str} (hl1 : '_' ∉ lab1) (hl2 : '_' ∉ lab2)
    {s1 s2 : Str} (h : phKeyD lab1 s1 = phKeyD lab2 s2) : lab1 = lab2 ∧ s1 = s2 :=
  sep_split_inj hl1 hl2 (phWrap_inj h)

/-- Python dict assignment adds nothing and drops nothing when the assigned
keys are pairwise distinct. -/
theorem dictOf_eq_self : ∀ {l : List (Str × Str)}, (l.map Prod.fst).Nodup → dictOf l = l := by
  have main : ∀ (l acc : List (Str × Str)), ((acc ++ l).map Prod.fst).Nodup →
      l.foldl (fun m e => dictInsert m e.1 e.2) acc = acc ++ l := by
    intro l
    induction l with
    | nil => intro acc _; simp
    | cons e l' ih =>
      intro acc hnd
      obtain ⟨k, v⟩ := e
      simp only [List.foldl_cons]
      have hnd' : (acc.map Prod.fst ++ (k :: l'.map Prod.fst)).Nodup := by
        simpa using hnd
      have hdisj := (List.nodup_append.mp hnd').2.2
      have hk : k ∉ acc.map Prod.fst := fun hmem => hdisj hmem (List.mem_cons_self _ _)
      rw [show dictInsert acc (k, v).1 (k, v).2 = acc ++ [(k, v)] from by
        simp [dictInsert, hk]]
      rw [ih (acc ++ [(k, v)]) (by simpa [List.append_assoc] using hnd)]
      simp
  intro l h
  exact main l [] (by simpa using h)


/-- Every key recorded by one concrete run is a generated placeholder. -/
theorem maskEntriesD_phkeyP (u : Nat → Str) (t : Str) (hu : ∀ n, Hex4 (u n)) :
    ∀ e ∈ maskEntries' u t, PhKeyP e.1 := by
  intro e he
  obtain ⟨p, o⟩ := e
  simp only [maskEntries', List.mem_append] at he
  rcases he with (he | he) | he
  · have hm := (tag_mem_entriesM p o _).mpr he
    obtain ⟨⟨j, hj⟩, -⟩ := scanPassF_tag_mem emailM (fun n => phKeyD labE (u n))
      t.length t none 0 p o hm
    rw [hj]
    exact PhKeyP_phKeyD_E (hu j).2
  · have hm := (tag_mem_entriesM p o _).mpr he
    obtain ⟨⟨j, hj⟩, -⟩ := scanPassF_tag_mem ipM (fun n => phKeyD labI (u n))
      (renderM (maskPassE' u t).1).length (renderM (maskPassE' u t).1) none
      (maskPassE' u t).2 p o hm
    rw [hj]
    exact PhKeyP_phKeyD_I (hu j).2
  · have hm := (tag_mem_entriesM p o _).mpr he
    obtain ⟨⟨j, hj⟩, -⟩ := scanPassF_tag_mem urlM (fun n => phKeyD labU (u n))
      (renderM (maskPassI' u t).1).length (renderM (maskPassI' u t).1) none
      (maskPassI' u t).2 p o hm
    rw [hj]
    exact PhKeyP_phKeyD_U (hu j).2

/-- In a run whose suffix draws do not collide (within the draws actually
consumed), the recorded keys are pairwise distinct and none occurs inside
another. -/
theorem maskEntriesD_pairwise (u : Nat → Str) (t : Str) (hu : ∀ n, Hex4 (u n))
    (hinj : ∀ i, i < (maskPassU' u t).2 → ∀ j, j < (maskPassU' u t).2 →
      u i = u j → i = j) :
    ((maskEntries' u t).map Prod.fst).Pairwise
      (fun a b => a ≠ b ∧ ¬ OccursIn a b ∧ ¬ OccursIn b a) := by
  obtain ⟨kE, hE1, hE2⟩ := scanPassF_keys emailM (fun n => phKeyD labE (u n))
    t.length none t 0
  obtain ⟨kI, hI1, hI2⟩ := scanPassF_keys ipM (fun n => phKeyD labI (u n))
    (renderM (maskPassE' u t).1).length none (renderM (maskPassE' u t).1) (maskPassE' u t).2
  obtain ⟨kU, hU1, hU2⟩ := scanPassF_keys urlM (fun n => phKeyD labU (u n))
    (renderM (maskPassI' u t).1).length none (renderM (maskPassI' u t).1) (maskPassI' u t).2
  have hctrE : (maskPassE' u t).2 = kE := by simpa using hE1
  have hctrI : (maskPassI' u t).2 = kE + kI := by
    rw [maskPassI', scanPass, hI1, hctrE]
  have hctrU : (maskPassU' u t).2 = kE + kI + kU := by
    rw [maskPassU', scanPass, hU1, hctrI]
  have relOf : ∀ lab1 lab2 : Str, (lab1 = labE ∨ lab1 = labI ∨ lab1 = labU) →
      (lab2 = labE ∨ lab2 = labI ∨ lab2 = labU) → ∀ i j : Nat,
      i < kE + kI + kU → j < kE + kI + kU → i ≠ j →
      phKeyD lab1 (u i) ≠ phKeyD lab2 (u j) ∧
        ¬ OccursIn (phKeyD lab1 (u i)) (phKeyD lab2 (u j)) ∧
        ¬ OccursIn (phKeyD lab2 (u j)) (phKeyD lab1 (u i)) := by
    intro lab1 lab2 h1 h2 i j hiD hjD hij
    have hmid1 : ∀ c ∈ phMidD lab1 (u i), midC c = true := by
      rcases h1 with rfl | rfl | rfl
      · exact phMidD_midC labels_midC.1 (hu i).2
      · exact phMidD_midC labels_midC.2.1 (hu i).2
      · exact phMidD_midC labels_midC.2.2 (hu i).2
    have hmid2 : ∀ c ∈ phMidD lab2 (u j), midC c = true := by
      rcases h2 with rfl | rfl | rfl
      · exact phMidD_midC labels_midC.1 (hu j).2
      · exact phMidD_midC labels_midC.2.1 (hu j).2
      · exact phMidD_midC labels_midC.2.2 (hu j).2
    have hb1 : ∀ c ∈ phMidD lab1 (u i), c ≠ '[' ∧ c ≠ ']' :=
      fun c hc => ⟨midC_not_lbracket (hmid1 c hc), midC_not_rbracket (hmid1 c hc)⟩
    have hb2 : ∀ c ∈ phMidD lab2 (u j), c ≠ '[' ∧ c ≠ ']' :=
      fun c hc => ⟨midC_not_lbracket (hmid2 c hc), midC_not_rbracket (hmid2 c hc)⟩
    have hl1 : '_' ∉ lab1 := by
      rcases h1 with rfl | rfl | rfl <;> decide
    have hl2 : '_' ∉ lab2 := by
      rcases h2 with rfl | rfl | rfl <;> decide
    have hne : phKeyD lab1 (u i) ≠ phKeyD lab2 (u j) := by
      intro h0
      obtain ⟨-, hu0⟩ := phKeyD_inj hl1 hl2 h0
      exact hij (hinj i (by omega) j (by omega) hu0)
    exact ⟨hne, phWrap_not_occursIn hb2 hb1 (fun h => hne h.symm),
      phWrap_not_occursIn hb1 hb2 hne⟩
  have hkeys : (maskEntries' u t).map Prod.fst =
      (List.range' 0 kE).map (fun i => phKeyD labE (u i)) ++
        (List.range' kE kI).map (fun i => phKeyD labI (u i)) ++
        (List.range' (kE + kI) kU).map (fun i => phKeyD labU (u i)) := by
    have hE2' : (entriesM (maskPassE' u t).1).map Prod.fst =
        (List.range' 0 kE).map (fun i => phKeyD labE (u i)) := hE2
    have hI2' : (entriesM (maskPassI' u t).1).map Prod.fst =
        (List.range' kE kI).map (fun i => phKeyD labI (u i)) := by
      rw [← hctrE]
      exact hI2
    have hU2' : (entriesM (maskPassU' u t).1).map Prod.fst =
        (List.range' (kE + kI) kU).map (fun i => phKeyD labU (u i)) := by
      rw [← hctrI]
      exact hU2
    simp only [maskEntries', List.map_append, hE2', hI2', hU2']
  rw [hkeys]
  have pwSeg : ∀ (lab : Str), (lab = labE ∨ lab = labI ∨ lab = labU) → ∀ s k : Nat,
      s + k ≤ kE + kI + kU →
      ((List.range' s k).map (fun i => phKeyD lab (u i))).Pairwise
        (fun a b => a ≠ b ∧ ¬ OccursIn a b ∧ ¬ OccursIn b a) := by
    intro lab hlab s k hsk
    have h1 : (List.range' s k).Pairwise
        (fun i j => phKeyD lab (u i) ≠ phKeyD lab (u j) ∧
          ¬ OccursIn (phKeyD lab (u i)) (phKeyD lab (u j)) ∧
          ¬ OccursIn (phKeyD lab (u j)) (phKeyD lab (u i))) := by
      refine (List.pairwise_lt_range' s k).imp_of_mem ?_
      intro i j hi hj hlt
      have hi' := List.mem_range'_1.mp hi
      have hj' := List.mem_range'_1.mp hj
      exact relOf lab lab hlab hlab i j (by omega) (by omega) (Nat.ne_of_lt hlt)
    exact List.Pairwise.map _ (fun a b h => h) h1
  have crossSeg : ∀ (lab1 lab2 : Str), (lab1 = labE ∨ lab1 = labI ∨ lab1 = labU) →
      (lab2 = labE ∨ lab2 = labI ∨ lab2 = labU) → ∀ s1 k1 s2 k2 : Nat,
      s1 + k1 ≤ s2 → s2 + k2 ≤ kE + kI + kU →
      ∀ a ∈ (List.range' s1 k1).map (fun i => phKeyD lab1 (u i)),
        ∀ b ∈ (List.range' s2 k2).map (fun i => phKeyD lab2 (u i)),
        a ≠ b ∧ ¬ OccursIn a b ∧ ¬ OccursIn b a := by
    intro lab1 lab2 h1 h2 s1 k1 s2 k2 hle hD a ha b hb
    obtain ⟨i, hi, rfl⟩ := List.mem_map.mp ha
    obtain ⟨j, hj, rfl⟩ := List.mem_map.mp hb
    have hi' := List.mem_range'_1.mp hi
    have hj' := List.mem_range'_1.mp hj
    exact relOf lab1 lab2 h1 h2 i j (by omega) (by omega) (by omega)
  rw [List.pairwise_append]
  refine ⟨?_, pwSeg labU (Or.inr (Or.inr rfl)) _ _ (by omega), ?_⟩
  · rw [List.pairwise_append]
    exact ⟨pwSeg labE (Or.inl rfl) _ _ (by omega),
      pwSeg labI (Or.inr (Or.inl rfl)) _ _ (by omega),
      crossSeg labE labI (Or.inl rfl) (Or.inr (Or.inl rfl)) 0 kE kE kI (by omega) (by omega)⟩
  · intro a ha b hb
    rcases List.mem_append.mp ha with ha | ha
    · exact crossSeg labE labU (Or.inl rfl) (Or.inr (Or.inr rfl)) 0 kE (kE + kI) kU
        (by omega) (by omega) a ha b hb
    · exact crossSeg labI labU (Or.inr (Or.inl rfl)) (Or.inr (Or.inr rfl)) kE kI (kE + kI) kU
        (by omega) (by omega) a ha b hb


/-! ## Round trip: assembling one concrete run of the pipeline -/

/-- C1 (amended): round trip of the Masker and the Reducer over one concrete
run. For every input text and every sequence of `uuid4().hex[:4].upper()`
draws such that (i) the draws the run consumes do not collide, (ii) the text
contains no `[` (so no raw chunk collides with the placeholder grammar), and
(iii) no recorded original contains `[` (so no URL match crossed into an
already-placed placeholder), applying the Reducer's substitution
(`perform_final_reduction`, the identity-translate case) to the Masker's
output with the recorded `mask_map` restores the input exactly. Conditions
(i) and (iii) are necessary: colliding draws make the dict lose an original
(`registry_keys_unique_cex`), and `masking_roundtrip_cex` breaks the round
trip with distinct draws via a URL match crossing a placeholder. -/
theorem masking_roundtrip (u : Nat → Str) (t : Str)
    (hu : ∀ n, Hex4 (u n))
    (hinj : ∀ i, i < (maskPassU' u t).2 → ∀ j, j < (maskPassU' u t).2 →
      u i = u j → i = j)
    (h1 : '[' ∉ t)
    (h2 : ∀ e ∈ maskEntries' u t, '[' ∉ e.2) :
    perform_final_reduction (local_masking_logic' u t).1 (local_masking_logic' u t).2 =
      t := by
  have HbreakI : ∀ (pv : Option Char) (c : Char) (v r : Str),
      ipM pv (c :: (v ++ '[' :: r)) = ipM pv (c :: v) ∨
        ∃ n, ipM pv (c :: (v ++ '[' :: r)) = some n ∧ v.length + 1 < n :=
    fun pv c v r => Or.inl (ipM_break pv (c :: v) r)
  have HboundI : ∀ (pv : Option Char) (c : Char) (v : Str) (n : Nat),
      ipM pv (c :: v) = some n → 1 ≤ n ∧ n ≤ v.length + 1 := by
    intro pv c v n h
    have := ipM_bound h
    simpa using this
  have HphI : ∀ mid, PhMidP mid → ∀ u' c v (B : Str) (pv : Option Char),
      phWrap mid = u' ++ c :: v → (u' ≠ [] → pv = u'.getLast?) →
      ipM pv (c :: (v ++ B)) = none :=
    fun mid hmid u' c v B pv h hc => ipM_none_inside hmid u' c v B pv h hc
  have HbreakU : ∀ (pv : Option Char) (c : Char) (v r : Str),
      urlM pv (c :: (v ++ '[' :: r)) = urlM pv (c :: v) ∨
        ∃ n, urlM pv (c :: (v ++ '[' :: r)) = some n ∧ v.length + 1 < n := by
    intro pv c v r
    rcases urlM_break pv (c :: v) r with h | ⟨n, h, hlt⟩
    · exact Or.inl h
    · exact Or.inr ⟨n, h, by simpa using hlt⟩
  have HboundU : ∀ (pv : Option Char) (c : Char) (v : Str) (n : Nat),
      urlM pv (c :: v) = some n → 1 ≤ n ∧ n ≤ v.length + 1 := by
    intro pv c v n h
    have h' : urlLen (c :: v) = some n := h
    have := urlLen_bound h'
    simpa using this
  have HphU : ∀ mid, PhMidP mid → ∀ u' c v (B : Str) (pv : Option Char),
      phWrap mid = u' ++ c :: v → (u' ≠ [] → pv = u'.getLast?) →
      urlM pv (c :: (v ++ B)) = none :=
    fun mid hmid u' c v B pv h _ => urlM_none_inside hmid u' c v B pv h
  have hnodup : ((maskEntries' u t).map Prod.fst).Nodup :=
    List.Pairwise.imp (fun h => h.1) (maskEntriesD_pairwise u t hu hinj)
  have hwfE : TokWF (maskPassE' u t).1 :=
    scanPassF_wf emailM (fun n => phKeyD labE (u n)) (fun n => PhKeyP_phKeyD_E (hu n).2)
      t.length t none 0
  have hrendE : renderR (maskPassE' u t).1 = t :=
    scanPassF_renderR emailM (fun n => phKeyD labE (u n)) t.length t none 0 le_rfl
  have hrawE : ∀ s, MTok.raw s ∈ (maskPassE' u t).1 → '[' ∉ s :=
    fun s hs hx => h1 (scanPassF_raw_mem emailM (fun n => phKeyD labE (u n))
      t.length t none 0 s hs '[' hx)
  have hRE : ∀ pr ∈ entriesM (maskPassE' u t).1, pr ∈ maskEntries' u t := by
    intro pr h
    simp only [maskEntries', List.mem_append]
    exact Or.inl (Or.inl h)
  have hRI : ∀ pr ∈ entriesM (maskPassI' u t).1, pr ∈ maskEntries' u t := by
    intro pr h
    simp only [maskEntries', List.mem_append]
    exact Or.inl (Or.inr h)
  have hRU : ∀ pr ∈ entriesM (maskPassU' u t).1, pr ∈ maskEntries' u t := by
    intro pr h
    simp only [maskEntries', List.mem_append]
    exact Or.inr h
  rcases liftPass_split ipM (fun n => phKeyD labI (u n)) HbreakI HboundI HphI
      (maskPassE' u t).1 none (maskPassE' u t).2 hwfE with ⟨e, he, hbe⟩ | ⟨hrI, hEI, hcI⟩
  · exact absurd hbe (h2 e (hRI e he))
  · have hwf2 : TokWF (liftPass ipM (fun n => phKeyD labI (u n)) none
        (maskPassE' u t).1 (maskPassE' u t).2).1 :=
      liftPass_wf ipM (fun n => phKeyD labI (u n)) (fun n => PhKeyP_phKeyD_I (hu n).2)
        (maskPassE' u t).1 none (maskPassE' u t).2 hwfE
    have hrend2 : renderR (liftPass ipM (fun n => phKeyD labI (u n)) none
        (maskPassE' u t).1 (maskPassE' u t).2).1 = t := by
      rw [liftPass_renderR]
      exact hrendE
    have hraw2 : ∀ s,
        MTok.raw s ∈ (liftPass ipM (fun n => phKeyD labI (u n)) none
          (maskPassE' u t).1 (maskPassE' u t).2).1 → '[' ∉ s :=
      liftPass_raw_free ipM (fun n => phKeyD labI (u n)) '[' (maskPassE' u t).1 none
        (maskPassE' u t).2 hrawE
    have hent2 : ∀ pr,
        pr ∈ entriesM (liftPass ipM (fun n => phKeyD labI (u n)) none
          (maskPassE' u t).1 (maskPassE' u t).2).1 → pr ∈ maskEntries' u t := by
      intro pr h
      rcases hEI pr h with h1 | h1
      · exact hRE pr h1
      · exact hRI pr h1
    have hMI1 : renderM (maskPassI' u t).1 =
        renderM (liftPass ipM (fun n => phKeyD labI (u n)) none
          (maskPassE' u t).1 (maskPassE' u t).2).1 := hrI
    have hMI2 : (maskPassI' u t).2 =
        (liftPass ipM (fun n => phKeyD labI (u n)) none
          (maskPassE' u t).1 (maskPassE' u t).2).2 := hcI
    have hMU : maskPassU' u t = scanPass urlM (fun n => phKeyD labU (u n)) none
        (renderM (liftPass ipM (fun n => phKeyD labI (u n)) none
          (maskPassE' u t).1 (maskPassE' u t).2).1)
        (liftPass ipM (fun n => phKeyD labI (u n)) none
          (maskPassE' u t).1 (maskPassE' u t).2).2 := by
      rw [maskPassU', hMI1, hMI2]
    rcases liftPass_split urlM (fun n => phKeyD labU (u n)) HbreakU HboundU HphU
        (liftPass ipM (fun n => phKeyD labI (u n)) none
          (maskPassE' u t).1 (maskPassE' u t).2).1 none
        (liftPass ipM (fun n => phKeyD labI (u n)) none
          (maskPassE' u t).1 (maskPassE' u t).2).2 hwf2 with
      ⟨e, he, hbe⟩ | ⟨hrU, hEU, hcU⟩
    · rw [← hMU] at he
      exact absurd hbe (h2 e (hRU e he))
    · have hM3 : renderM (maskPassU' u t).1 =
          renderM (liftPass urlM (fun n => phKeyD labU (u n)) none
            (liftPass ipM (fun n => phKeyD labI (u n)) none
              (maskPassE' u t).1 (maskPassE' u t).2).1
            (liftPass ipM (fun n => phKeyD labI (u n)) none
              (maskPassE' u t).1 (maskPassE' u t).2).2).1 := by
        rw [hMU]
        exact hrU
      have hrend3 : renderR (liftPass urlM (fun n => phKeyD labU (u n)) none
          (liftPass ipM (fun n => phKeyD labI (u n)) none
            (maskPassE' u t).1 (maskPassE' u t).2).1
          (liftPass ipM (fun n => phKeyD labI (u n)) none
            (maskPassE' u t).1 (maskPassE' u t).2).2).1 = t := by
        rw [liftPass_renderR]
        exact hrend2
      have hraw3 : ∀ s, MTok.raw s ∈ (liftPass urlM (fun n => phKeyD labU (u n)) none
          (liftPass ipM (fun n => phKeyD labI (u n)) none
            (maskPassE' u t).1 (maskPassE' u t).2).1
          (liftPass ipM (fun n => phKeyD labI (u n)) none
            (maskPassE' u t).1 (maskPassE' u t).2).2).1 → '[' ∉ s :=
        liftPass_raw_free urlM (fun n => phKeyD labU (u n)) '['
          (liftPass ipM (fun n => phKeyD labI (u n)) none
            (maskPassE' u t).1 (maskPassE' u t).2).1 none
          (liftPass ipM (fun n => phKeyD labI (u n)) none
            (maskPassE' u t).1 (maskPassE' u t).2).2 hraw2
      have htag3 : ∀ p' o', MTok.tag p' o' ∈ (liftPass urlM (fun n => phKeyD labU (u n)) none
          (liftPass ipM (fun n => phKeyD labI (u n)) none
            (maskPassE' u t).1 (maskPassE' u t).2).1
          (liftPass ipM (fun n => phKeyD labI (u n)) none
            (maskPassE' u t).1 (maskPassE' u t).2).2).1 →
            (p', o') ∈ maskEntries' u t := by
        intro p' o' h
        have hpr := (tag_mem_entriesM p' o' _).mp h
        rcases hEU _ hpr with h1 | h1
        · exact hent2 _ h1
        · rw [← hMU] at h1
          exact hRU _ h1
      have hfinal := reduce_fold (maskEntries' u t)
        (liftPass urlM (fun n => phKeyD labU (u n)) none
          (liftPass ipM (fun n => phKeyD labI (u n)) none
            (maskPassE' u t).1 (maskPassE' u t).2).1
          (liftPass ipM (fun n => phKeyD labI (u n)) none
            (maskPassE' u t).1 (maskPassE' u t).2).2).1
        (maskEntriesD_phkeyP u t hu) h2 hnodup htag3 hraw3
      have hdict : (local_masking_logic' u t).2 = maskEntries' u t :=
        dictOf_eq_self hnodup
      calc perform_final_reduction (local_masking_logic' u t).1 (local_masking_logic' u t).2
          = (maskEntries' u t).foldl (fun acc e => replaceAll acc e.1 e.2)
              (renderM (liftPass urlM (fun n => phKeyD labU (u n)) none
                (liftPass ipM (fun n => phKeyD labI (u n)) none
                  (maskPassE' u t).1 (maskPassE' u t).2).1
                (liftPass ipM (fun n => phKeyD labI (u n)) none
                  (maskPassE' u t).1 (maskPassE' u t).2).2).1) := by
            rw [perform_final_reduction, hdict,
              show (local_masking_logic' u t).1 = renderM (maskPassU' u t).1 from rfl, hM3]
        _ = renderR (liftPass urlM (fun n => phKeyD labU (u n)) none
              (liftPass ipM (fun n => phKeyD labI (u n)) none
                (maskPassE' u t).1 (maskPassE' u t).2).1
              (liftPass ipM (fun n => phKeyD labI (u n)) none
                (maskPassE' u t).1 (maskPassE' u t).2).2).1 := hfinal
        _ = t := hrend3

/-- C1, counterexample to the claim as stated: a run on `http://a@b.cd` with
the two distinct, legitimate draws `0000` and `0001`. The EMAIL pass first
replaces `a@b.cd`; the URL pass then matches `http://[[EMAIL_0000]]` across
the placeholder, recording a URL original that contains the EMAIL
placeholder; the Reducer iterates the map in insertion order, so the EMAIL
key is processed before the URL original is put back, and the raw EMAIL
placeholder survives in the final output. -/
theorem masking_roundtrip_cex :
    (∀ n, Hex4 ((fun k : Nat => if k = 0 then sl "0000" else sl "0001") n)) ∧
    (∀ i, i < (maskPassU' (fun k => if k = 0 then sl "0000" else sl "0001")
        (sl "http://a@b.cd")).2 →
      ∀ j, j < (maskPassU' (fun k => if k = 0 then sl "0000" else sl "0001")
        (sl "http://a@b.cd")).2 →
      (fun k => if k = 0 then sl "0000" else sl "0001") i =
        (fun k => if k = 0 then sl "0000" else sl "0001") j → i = j) ∧
    perform_final_reduction
        (local_masking_logic' (fun k => if k = 0 then sl "0000" else sl "0001")
          (sl "http://a@b.cd")).1
        (local_masking_logic' (fun k => if k = 0 then sl "0000" else sl "0001")
          (sl "http://a@b.cd")).2 ≠ sl "http://a@b.cd" := by
    refine ⟨?_, by decide, by decide⟩
    intro n
    show Hex4 (if n = 0 then sl "0000" else sl "0001")
    by_cases h : n = 0
    · simp only [if_pos h]
      decide
    · simp only [if_neg h]
      decide

/-- C1, witness: the amended round trip at a concrete run (a single EMAIL
mask with draw `00A7`) satisfying all the hypotheses. -/
theorem masking_roundtrip_witness :
    perform_final_reduction
        (local_masking_logic' (fun _ => sl "00A7") (sl "Contact dev@autogen.ai now.")).1
        (local_masking_logic' (fun _ => sl "00A7") (sl "Contact dev@autogen.ai now.")).2 =
      sl "Contact dev@autogen.ai now." :=
  masking_roundtrip (fun _ => sl "00A7") (sl "Contact dev@autogen.ai now.")
    (fun _ => (by decide : Hex4 (sl "00A7"))) (by decide) (by decide) (by decide)

/-- C7, counterexample to the claim as stated: in the run whose four-hex
draws all come out `0000` — a possible outcome of `uuid4().hex[:4].upper()`,
and, by pigeonhole, some collision is certain once a run masks more than
65536 matches — the text `a@b.cd e@f.gh` yields two recorded entries with the
same placeholder `[[EMAIL_0000]]`; the dict assignment then keeps only the
later original, so `a@b.cd` is silently lost from the registry. -/
theorem registry_keys_unique_cex :
    (∀ n, Hex4 ((fun _ : Nat => sl "0000") n)) ∧
    ¬ ((maskEntries' (fun _ => sl "0000") (sl "a@b.cd e@f.gh")).map Prod.fst).Pairwise
        (fun a b => a ≠ b ∧ ¬ OccursIn a b ∧ ¬ OccursIn b a) ∧
    (local_masking_logic' (fun _ => sl "0000") (sl "a@b.cd e@f.gh")).2 =
      [(sl "[[EMAIL_0000]]", sl "e@f.gh")] := by
  refine ⟨fun _ => (by decide : Hex4 (sl "0000")), ?_, by decide⟩
  intro hpw
  have hkeys : (maskEntries' (fun _ => sl "0000") (sl "a@b.cd e@f.gh")).map Prod.fst =
      [sl "[[EMAIL_0000]]", sl "[[EMAIL_0000]]"] := by decide
  rw [hkeys] at hpw
  have h := (List.pairwise_cons.mp hpw).1 (sl "[[EMAIL_0000]]") (List.mem_cons_self _ _)
  exact h.1 rfl

/-- C7 (amended): the registry uniqueness invariant holds exactly for the
runs whose drawn suffixes do not collide among the draws consumed — the code
does not enforce this (each draw is four random hex characters, so two
entries can share a placeholder, and beyond 65536 masks some collision is
certain). In a collision-free run, the recorded placeholder keys are pairwise
distinct, no key occurs as a contiguous substring of another, and the
`mask_map` dict keeps every recorded entry; since the entry list grows left
to right, every prefix of it (the registry at any point during masking)
inherits both properties. -/
theorem registry_keys_unique (u : Nat → Str) (t : Str) (hu : ∀ n, Hex4 (u n))
    (hinj : ∀ i, i < (maskPassU' u t).2 → ∀ j, j < (maskPassU' u t).2 →
      u i = u j → i = j) :
    ((maskEntries' u t).map Prod.fst).Pairwise
        (fun a b => a ≠ b ∧ ¬ OccursIn a b ∧ ¬ OccursIn b a) ∧
    (local_masking_logic' u t).2 = maskEntries' u t :=
  ⟨maskEntriesD_pairwise u t hu hinj,
    dictOf_eq_self (List.Pairwise.imp (fun h => h.1) (maskEntriesD_pairwise u t hu hinj))⟩

/-- C7, witness: the amended uniqueness at a concrete run with two distinct
draws. -/
theorem registry_keys_unique_witness :
    ((maskEntries' (fun n => if n = 0 then sl "0A17" else sl "0B28")
        (sl "a@b.cd e@f.gh")).map Prod.fst).Pairwise
        (fun a b => a ≠ b ∧ ¬ OccursIn a b ∧ ¬ OccursIn b a) ∧
    (local_masking_logic' (fun n => if n = 0 then sl "0A17" else sl "0B28")
        (sl "a@b.cd e@f.gh")).2 =
      maskEntries' (fun n => if n = 0 then sl "0A17" else sl "0B28")
        (sl "a@b.cd e@f.gh") :=
  registry_keys_unique (fun n => if n = 0 then sl "0A17" else sl "0B28")
    (sl "a@b.cd e@f.gh")
    (fun n => by
      show Hex4 (if n = 0 then sl "0A17" else sl "0B28")
      by_cases h : n = 0
      · simp only [if_pos h]
        decide
      · simp only [if_neg h]
        decide)
    (by decide)

end MTW
